import Mathlib

/-!
Verification of the deterministic block-merge schedulers in
`playground/block_merge.py` (classes `block_merger` and `block_merger2`).

Sources are identified with their position `0, 1, ...` in the activation
order; the block payloads are modelled as pairs `(s, k)` where `s` is the
source id and `k ≥ 1` the position of the block in that source's output.
A configuration is the number of slots `M` together with the list
`counts` of per-source block counts (so `N = counts.length`).

Concurrency is modelled by interleaving: each call of `add` is one atomic
event of a schedule, and for the strict variant (whose `add` suspends on a
condition variable) a call is split into an `invoke` event (the call starts,
the assertion runs, the request becomes in-flight) and a `complete` event
(the wait `ix != index` finishes and the merge section runs).
-/

set_option autoImplicit false
set_option maxRecDepth 100000
set_option maxHeartbeats 2000000

namespace BlockMerge

/-- Errors a run of either merger can raise.  `protocol` is a failed
`assert source in ...` check, `oob` a Python `IndexError` on a list access,
`emptyAssert` the failed `assert self.__queue[self.__index] is not None`
inside `__try_merge`, and `fuelOut` is exhaustion of the fuel of the
embedding (proved unreachable where it matters). -/
inductive MergeErr : Type where
  | protocol : MergeErr
  | oob : MergeErr
  | emptyAssert : MergeErr
  | fuelOut : MergeErr
deriving DecidableEq, Repr

/-!
### The turn-pointer advance loop

Both variants advance the shared index with the same loop:

```python
while True:
    self.__index = (self.__index + 1) % self.__slots
    if self.__index == ix or self.__active[self.__index] is not None:
        break
```

(the queue variant probes `self.__queue` instead of `self.__active`).
Starting from `ix`, the loop probes the indices
`ix+1, ix+2, ..., M-1, 0, 1, ..., ix` in this order; it stops at the first
probe that either equals `ix` (which is always the last probe) or holds a
non-`None` entry, and it raises `IndexError` when a probe lies beyond the
end of the list.  We model the probe sequence by the rotated range
`(range M).drop (ix+1) ++ (range M).take (ix+1)`.
-/

/-- One scan of the advance loop over the remaining probe indices.  On
success, returns the new index; on failure, the error together with the
index at which the loop stopped (Python leaves `self.__index` there). -/
def advList {α : Type} (slots : List (Option α)) (ix : Nat) :
    List Nat → Except (MergeErr × Nat) Nat
  | [] => .error (.fuelOut, ix)
  | p :: ps =>
    if p = ix then .ok p
    else
      match slots.get? p with
      | none => .error (.oob, p)
      | some (some _) => .ok p
      | some none => advList slots ix ps

/-- The probe sequence of the advance loop: `ix+1, ..., M-1, 0, ..., ix`. -/
def probeSeq (M ix : Nat) : List Nat :=
  (List.range M).drop (ix + 1) ++ (List.range M).take (ix + 1)

/-- The advance loop of both mergers. -/
def advance {α : Type} (M : Nat) (slots : List (Option α)) (ix : Nat) :
    Except (MergeErr × Nat) Nat :=
  advList slots ix (probeSeq M ix)

/-!
### The canonical (forced) machine

The control state shared by both mergers: the slot table (`block_merger`'s
`self.__active`), the pending activation queue (`self.__sources`), the turn
pointer (`self.__index`) and the merged output (`self.__merged`).
-/

/-- Control state of a merger. -/
structure CState : Type where
  active : List (Option Nat)
  pending : List Nat
  idx : Nat
  merged : List (Nat × Nat)
deriving DecidableEq, Repr

/-- Number of blocks of source `s` present in a merged output. -/
def mergedCnt (merged : List (Nat × Nat)) (s : Nat) : Nat :=
  (merged.filter (fun b => b.1 == s)).length

/-- Initial control state: the constructor loop
`while len(active) < slots and len(sources) > 0: active.append(sources.pop(0))`
moves the first `min M N` sources into the slot table and leaves the rest
pending. -/
def initC (M : Nat) (srcs : List Nat) : CState :=
  { active := (srcs.take M).map some
    pending := srcs.drop M
    idx := 0
    merged := [] }

/-- The body of the merge section of `block_merger.add` once the turn has
arrived (`merged.append(block)`; on a final block, refill the slot with
`sources.pop(0)` or `None`; then run the advance loop).  `s` is the merging
source, `k` its block index and `fin` the submitted final flag.  The second
component records an `IndexError` raised by the advance loop. -/
def mergeAt (M : Nat) (c : CState) (s k : Nat) (fin : Bool) :
    CState × Option MergeErr :=
  let merged' := c.merged ++ [(s, k)]
  let active' := if fin then c.active.set c.idx c.pending.head? else c.active
  let pending' := if fin then c.pending.tail else c.pending
  match advance M active' c.idx with
  | .ok j => ({ active := active', pending := pending', idx := j, merged := merged' }, none)
  | .error (e, j) => ({ active := active', pending := pending', idx := j, merged := merged' }, some e)

/-- One forced step of the canonical machine: the occupant of the slot at
the turn pointer contributes its next block (final exactly when it is the
occupant's last).  Returns `none` when the current slot is permanently
empty, out of range, or the advance loop raises. -/
def forcedStep (M : Nat) (counts : List Nat) (c : CState) : Option CState :=
  match c.active.get? c.idx with
  | some (some s) =>
    let k := mergedCnt c.merged s + 1
    match mergeAt M c s k (k == counts.getD s 0) with
    | (c', none) => some c'
    | (_, some _) => none
  | _ => none

/-- Canonical machine state after `n` forced steps. -/
def canonSt (M : Nat) (counts : List Nat) : Nat → Option CState
  | 0 => some (initC M (List.range counts.length))
  | n + 1 => (canonSt M counts n).bind (forcedStep M counts)

/-- Total number of blocks of a configuration. -/
def totalBlocks (counts : List Nat) : Nat := counts.sum

/-- The canonical merged output of a configuration: the merged output after
all blocks have been forced through the machine. -/
def canonOut (M : Nat) (counts : List Nat) : List (Nat × Nat) :=
  match canonSt M counts (totalBlocks counts) with
  | some c => c.merged
  | none => []

/-!
### The queue variant (`block_merger2`)

State of a `block_merger2` object: the dict `self.__source_index` is an
association list with Python-dict semantics (unique keys; insertion
overwrites an existing key, otherwise appends), `self.__queue` is a list
whose entries are either `None` (a permanently empty slot) or a bounded
FIFO buffer, modelled as a plain list together with the capacity check made
at submission time.  A raised `AssertionError`/`IndexError` is recorded in
`err` (the Python exception propagates out of `add`, leaving the already
performed mutations in place).
-/

/-- Entry of a per-slot buffer: the tuple `(source, block, final)` put by
`add`; the block payload is its index within the source. -/
abbrev BufEntry : Type := Nat × Nat × Bool

/-- State of a `block_merger2` object. -/
structure QState : Type where
  srcIx : List (Nat × Nat)
  pending : List Nat
  queues : List (Option (List BufEntry))
  idx : Nat
  merged : List (Nat × Nat)
  err : Option MergeErr
deriving DecidableEq, Repr

/-- Python dict lookup `d[k]` on the association list model. -/
def dictGet (l : List (Nat × Nat)) (s : Nat) : Option Nat :=
  (l.find? (fun p => p.1 == s)).map (·.2)

/-- Python dict assignment `d[k] = v`: overwrite the existing key or append. -/
def dictPut (l : List (Nat × Nat)) (k v : Nat) : List (Nat × Nat) :=
  if l.any (fun p => p.1 == k) then
    l.map (fun p => if p.1 == k then (k, v) else p)
  else l ++ [(k, v)]

/-- Python `del d[k]`: drop the (unique) entry with key `k`. -/
def dictDel (l : List (Nat × Nat)) (k : Nat) : List (Nat × Nat) :=
  l.eraseP (fun p => p.1 == k)

/-- Constructor of `block_merger2`: the first `min M N` sources each get a
slot index and an empty buffer; the rest stay pending. -/
def qInit (M : Nat) (srcs : List Nat) : QState :=
  { srcIx := (srcs.take M).enum.map (fun p => (p.2, p.1))
    pending := srcs.drop M
    queues := List.replicate (srcs.take M).length (some [])
    idx := 0
    merged := []
    err := none }

/-- Total number of buffered (submitted but unmerged) entries. -/
def totalBuf (st : QState) : Nat :=
  (st.queues.map (fun q => (q.getD []).length)).sum

/-- The loop body of `block_merger2.__try_merge`, with fuel.  Each
iteration checks `assert self.__queue[self.__index] is not None`, pops the
front of that buffer (`get_nowait`, an empty buffer raising `queue.Empty`
ends the loop normally), appends the block to the output, on a final block
deletes the source from the dict and either reassigns the slot index to the
next pending source or sets the buffer to `None`, and finally runs the
advance loop. -/
def tryMergeGo (M : Nat) : Nat → QState → QState
  | 0, st => { st with err := st.err <|> some .fuelOut }
  | fuel + 1, st =>
    match st.queues.get? st.idx with
    | none => { st with err := st.err <|> some .oob }
    | some none => { st with err := st.err <|> some .emptyAssert }
    | some (some []) => st
    | some (some ((s, k, fin) :: rest)) =>
      let merged' := st.merged ++ [(s, k)]
      let st' :=
        if fin then
          match st.pending with
          | p :: ps =>
            { st with
              merged := merged'
              srcIx := dictPut (dictDel st.srcIx s) p st.idx
              pending := ps
              queues := st.queues.set st.idx (some rest) }
          | [] =>
            { st with
              merged := merged'
              srcIx := dictDel st.srcIx s
              queues := st.queues.set st.idx none }
        else { st with merged := merged', queues := st.queues.set st.idx (some rest) }
      match advance M st'.queues st.idx with
      | .ok j => tryMergeGo M fuel { st' with idx := j }
      | .error (e, j) => { st' with idx := j, err := st'.err <|> some e }

/-- `block_merger2.__try_merge`.  The fuel `totalBuf st + 1` covers every
iteration the loop can make: each recursive call pops one buffered entry. -/
def tryMerge (M : Nat) (st : QState) : QState :=
  tryMergeGo M (totalBuf st + 1) st

/-- `block_merger2.add`: resolve the source to its slot
(`assert source in self.__source_index` fails with a `protocol` error
otherwise), check `assert self.__queue[ix] is not None`, put
`(source, block, final)` into that buffer, and run `__try_merge`. -/
def qAdd (M : Nat) (s k : Nat) (fin : Bool) (st : QState) : QState :=
  match dictGet st.srcIx s with
  | none => { st with err := st.err <|> some .protocol }
  | some ix =>
    match st.queues.get? ix with
    | some (some buf) =>
      tryMerge M { st with queues := st.queues.set ix (some (buf ++ [(s, k, fin)])) }
    | some none => { st with err := st.err <|> some .protocol }
    | none => { st with err := st.err <|> some .oob }

/-!
The driver for a run of the queue variant.  A schedule is the list of
source ids in the order in which their `add` calls take effect; the
producer of source `s` carries its own iteration state, so its `j`-th call
submits block `j` of `s`, final exactly on the last.  `viol` records that
the schedule is not realizable by the real system: a producer submitted a
block of a source it could never have pulled (the source occupies no slot),
overran its source's count, or submitted to a full buffer (the real
`Queue.put` would have blocked and taken effect only later).
-/

/-- Driver state for a queue-variant run. -/
structure QRun : Type where
  st : QState
  subCnt : List Nat
  viol : Bool
deriving DecidableEq, Repr

/-- Length of the buffer at slot `ix` (0 for a permanently empty slot). -/
def bufLenAt (st : QState) (ix : Nat) : Nat :=
  match st.queues.get? ix with
  | some (some b) => b.length
  | _ => 0

/-- One schedule event of the queue variant: source `s` submits its next
block. -/
def qStep (M Qcap : Nat) (counts : List Nat) (r : QRun) (s : Nat) : QRun :=
  let k := r.subCnt.getD s 0 + 1
  let fin := k == counts.getD s 0
  let occ := dictGet r.st.srcIx s
  let room : Bool := match occ with
    | some ix => decide (bufLenAt r.st ix < Qcap)
    | none => false
  let viol' := r.viol || !(decide (k ≤ counts.getD s 0)) || !room
  { st := qAdd M s k fin r.st, subCnt := r.subCnt.set s k, viol := viol' }

/-- Run of the queue variant on a schedule. -/
def runQ (M Qcap : Nat) (counts : List Nat) (sched : List Nat) : QRun :=
  sched.foldl (qStep M Qcap counts)
    { st := qInit M (List.range counts.length)
      subCnt := List.replicate counts.length 0
      viol := false }

/-- A complete schedule submits every block of every source. -/
def qComplete (counts : List Nat) (r : QRun) : Prop :=
  r.subCnt = counts

/-!
### The strict variant (`block_merger`)

`block_merger.add` first runs `assert source in self.__active` and
`ix = self.__active.index(source)`, then suspends on the condition variable
until `ix == self.__index`, and only then appends the block, refills the
slot on a final block, and advances the turn pointer.  We split each call
into an `invoke` event (assertion and index lookup; the call becomes
in-flight) and a `complete` event (the merge section, enabled only when the
stored slot index equals the turn pointer).  An in-flight entry is
`(source, block index, final flag, slot index)`.
-/

/-- State of a `block_merger` object together with its suspended calls. -/
structure SState : Type where
  ctrl : CState
  inflight : List (Nat × Nat × Bool × Nat)
  err : Option MergeErr
deriving DecidableEq, Repr

/-- Initial strict-variant state. -/
def sInit (M : Nat) (srcs : List Nat) : SState :=
  { ctrl := initC M srcs, inflight := [], err := none }

/-- Entry of `block_merger.add`: `assert source in self.__active` (recorded
as a `protocol` error when it fails, leaving the state unchanged) followed
by `ix = self.__active.index(source)`; the call then becomes in-flight. -/
def sInvoke (s k : Nat) (fin : Bool) (st : SState) : SState :=
  match st.ctrl.active.findIdx? (fun o => o == some s) with
  | none => { st with err := st.err <|> some .protocol }
  | some ix => { st with inflight := st.inflight ++ [(s, k, fin, ix)] }

/-- One schedule event of the strict variant. -/
inductive SEv : Type where
  | invoke : Nat → SEv
  | complete : Nat → SEv
deriving DecidableEq, Repr

/-- Driver state for a strict-variant run. -/
structure SRun : Type where
  st : SState
  subCnt : List Nat
  viol : Bool
deriving DecidableEq, Repr

/-- One schedule event of the strict variant.  An `invoke s` submits the
next block of source `s` (the producer's own counter decides the block
index and the final flag); it is unrealizable (`viol`) when the producer
overruns its source or the source already has a call in flight (each source
has a single producer submitting strictly in sequence).  A `complete s` is
unrealizable unless `s` has an in-flight call whose slot equals the turn
pointer (the wait `while ix != self.__index` has finished). -/
def sStep (M : Nat) (counts : List Nat) (r : SRun) (e : SEv) : SRun :=
  match e with
  | .invoke s =>
    let k := r.subCnt.getD s 0 + 1
    let fin := k == counts.getD s 0
    let viol' := r.viol || !(decide (k ≤ counts.getD s 0)) ||
      r.st.inflight.any (fun t => t.1 == s)
    { st := sInvoke s k fin r.st, subCnt := r.subCnt.set s k, viol := viol' }
  | .complete s =>
    match r.st.inflight.find? (fun t => t.1 == s) with
    | none => { r with viol := true }
    | some (_, k, fin, ix) =>
      if ix = r.st.ctrl.idx then
        match mergeAt M r.st.ctrl s k fin with
        | (c', e?) =>
          { r with st := { ctrl := c'
                           inflight := r.st.inflight.eraseP (fun t => t.1 == s)
                           err := r.st.err <|> e? } }
      else { r with viol := true }

/-- Run of the strict variant on a schedule of events. -/
def runS (M : Nat) (counts : List Nat) (sched : List SEv) : SRun :=
  sched.foldl (sStep M counts)
    { st := sInit M (List.range counts.length)
      subCnt := List.replicate counts.length 0
      viol := false }

/-- A complete strict schedule submits every block and leaves no call in
flight. -/
def sCompleteRun (counts : List Nat) (r : SRun) : Prop :=
  r.subCnt = counts ∧ r.st.inflight = []

/-!
### The golden scenario

Sources `A, ..., J` of the documented example are the ids `0, ..., 9` in
activation order; `goldenOut` is the documented output sequence
`A1, B1, C1, D1, A2, ...` and `goldenSchedS` one strict schedule realizing
it (each block invoked and completed in canonical order).
-/

/-- Block counts of the golden scenario (`A=2, B=3, ..., J=7`). -/
def goldenCounts : List Nat := [2, 3, 9, 2, 5, 3, 3, 6, 1, 7]

/-- Documented output sequence of the golden scenario. -/
def goldenOut : List (Nat × Nat) :=
  [(0, 1), (1, 1), (2, 1), (3, 1), (0, 2), (1, 2), (2, 2), (3, 2), (4, 1),
   (1, 3), (2, 3), (5, 1), (4, 2), (6, 1), (2, 4), (5, 2), (4, 3), (6, 2),
   (2, 5), (5, 3), (4, 4), (6, 3), (2, 6), (7, 1), (4, 5), (8, 1), (2, 7),
   (7, 2), (9, 1), (2, 8), (7, 3), (9, 2), (2, 9), (7, 4), (9, 3), (7, 5),
   (9, 4), (7, 6), (9, 5), (9, 6), (9, 7)]

/-- One strict schedule of the golden scenario: each block's `add` call
starts and finishes before the next block's call. -/
def goldenSchedS : List SEv :=
  goldenOut.flatMap (fun b => [SEv.invoke b.1, SEv.complete b.1])

/-!
### Properties of the advance loop
-/

theorem drop_range_eq (m k : Nat) :
    (List.range m).drop k = List.range' k (m - k) := by
  apply List.ext_getElem?
  intro i
  rw [List.getElem?_drop]
  by_cases h : i < m - k
  · have h1 : k + i < m := by omega
    have h2 : i < (List.range' k (m - k)).length := by simp [h]
    rw [List.getElem?_range h1, List.getElem?_eq_getElem h2]
    simp
  · have h1 : ¬ k + i < (List.range m).length := by simp; omega
    have h2 : ¬ i < (List.range' k (m - k)).length := by simp [h]
    rw [List.getElem?_eq_none (by omega), List.getElem?_eq_none (by simp; omega)]

/-- Every probe index is below `M`. -/
theorem probeSeq_lt {M ix p : Nat} (h : p ∈ probeSeq M ix) : p < M := by
  rcases List.mem_append.1 h with h' | h'
  · exact List.mem_range.1 (List.mem_of_mem_drop h')
  · exact List.mem_range.1 (List.mem_of_mem_take h')

/-- The initial probes: everything except the final wrap-around probe. -/
def probeInit (M ix : Nat) : List Nat :=
  (List.range M).drop (ix + 1) ++ List.range ix

theorem probeSeq_eq (M ix : Nat) (h : ix < M) :
    probeSeq M ix = probeInit M ix ++ [ix] := by
  unfold probeSeq probeInit
  rw [List.take_range, Nat.min_eq_left h, List.range_succ, List.append_assoc]

theorem mem_probeInit {M ix p : Nat} (h : ix < M) :
    p ∈ probeInit M ix ↔ p < M ∧ p ≠ ix := by
  unfold probeInit
  rw [List.mem_append, drop_range_eq, List.mem_range'_1, List.mem_range]
  omega

theorem advList_ok_mem {α : Type} {slots : List (Option α)} {ix j : Nat}
    {probes : List Nat} (h : advList slots ix probes = .ok j) : j ∈ probes := by
  induction probes with
  | nil => simp [advList] at h
  | cons p ps ih =>
    rw [advList] at h
    split at h
    · cases h; exact List.mem_cons_self _ _
    · split at h
      · cases h
      · cases h; exact List.mem_cons_self _ _
      · exact List.mem_cons_of_mem _ (ih h)

theorem advList_ok_spec {α : Type} {slots : List (Option α)} {ix j : Nat}
    {probes : List Nat} (h : advList slots ix probes = .ok j) :
    j = ix ∨ ∃ x, slots.get? j = some (some x) := by
  induction probes with
  | nil => simp [advList] at h
  | cons p ps ih =>
    rw [advList] at h
    split at h
    · cases h; left; assumption
    · rename_i hne
      split at h
      · cases h
      · cases h; rename_i x heq; exact Or.inr ⟨x, heq⟩
      · exact ih h

theorem advList_ok_of_probes {α : Type} {slots : List (Option α)} {ix : Nat}
    {probes : List Nat} (hmem : ix ∈ probes)
    (hlt : ∀ p ∈ probes, p < slots.length) :
    ∃ j, advList slots ix probes = .ok j := by
  induction probes with
  | nil => cases hmem
  | cons p ps ih =>
    rw [advList]
    split
    · exact ⟨p, rfl⟩
    · rename_i hne
      have hp : p < slots.length := hlt p (List.mem_cons_self _ _)
      rcases hget : slots.get? p with _ | o
      · rw [List.get?_eq_getElem?] at hget
        exact absurd hget (by simp [List.getElem?_eq_getElem hp])
      · cases o with
        | some x => exact ⟨p, rfl⟩
        | none =>
          have hmem' : ix ∈ ps := by
            rcases List.mem_cons.1 hmem with h | h
            · exact absurd h.symm hne
            · exact h
          exact ih hmem' (fun q hq => hlt q (List.mem_cons_of_mem _ hq))

theorem advList_wrap {α : Type} {slots : List (Option α)} {ix : Nat}
    {pre post : List Nat} (hpre : ix ∉ pre)
    (h : advList slots ix (pre ++ ix :: post) = .ok ix) :
    ∀ p ∈ pre, slots.get? p = some none := by
  induction pre with
  | nil => intro p hp; cases hp
  | cons q qs ih =>
    intro p hp
    have hqne : q ≠ ix := fun he => hpre (he ▸ List.mem_cons_self _ _)
    rw [List.cons_append, advList, if_neg hqne] at h
    rcases hget : slots.get? q with _ | o
    · rw [hget] at h; cases h
    · cases o with
      | some x => rw [hget] at h; cases h; exact absurd rfl hqne
      | none =>
        rw [hget] at h
        rcases List.mem_cons.1 hp with h' | h'
        · exact h' ▸ hget
        · exact ih (fun hm => hpre (List.mem_cons_of_mem _ hm)) h p h'

/-- The advance loop terminates with a new index below `M` whenever the
slot list has at least `M` entries. -/
theorem advance_ok {α : Type} {M : Nat} {slots : List (Option α)} {ix : Nat}
    (hix : ix < M) (hlen : M ≤ slots.length) :
    ∃ j, advance M slots ix = .ok j ∧ j < M := by
  have hmem : ix ∈ probeSeq M ix := by
    rw [probeSeq_eq M ix hix]
    exact List.mem_append.2 (Or.inr (List.mem_cons_self _ _))
  obtain ⟨j, hj⟩ := advList_ok_of_probes hmem
    (fun p hp => Nat.lt_of_lt_of_le (probeSeq_lt hp) hlen)
  exact ⟨j, hj, probeSeq_lt (advList_ok_mem hj)⟩

/-- A successful advance lands on `ix` itself or on an occupied slot. -/
theorem advance_spec {α : Type} {M : Nat} {slots : List (Option α)} {ix j : Nat}
    (h : advance M slots ix = .ok j) :
    j = ix ∨ ∃ x, slots.get? j = some (some x) :=
  advList_ok_spec h

theorem advance_lt {α : Type} {M : Nat} {slots : List (Option α)} {ix j : Nat}
    (h : advance M slots ix = .ok j) : j < M :=
  probeSeq_lt (advList_ok_mem h)

/-- If the advance loop wraps all the way around to `ix`, every other slot
below `M` is permanently empty. -/
theorem advance_wrap {α : Type} {M : Nat} {slots : List (Option α)} {ix : Nat}
    (hix : ix < M) (h : advance M slots ix = .ok ix) :
    ∀ i < M, i ≠ ix → slots.get? i = some none := by
  intro i hi hne
  have hpre : ix ∉ probeInit M ix := fun hm => ((mem_probeInit hix).1 hm).2 rfl
  rw [advance, probeSeq_eq M ix hix] at h
  exact advList_wrap hpre h i ((mem_probeInit hix).2 ⟨hi, hne⟩)

/-- The advance loop only inspects whether entries are `None`, so two slot
lists of the same shape advance identically. -/
theorem advList_congr {α β : Type} {a : List (Option α)} {b : List (Option β)}
    (h : ∀ i, (a.get? i).map Option.isSome = (b.get? i).map Option.isSome)
    (ix : Nat) (probes : List Nat) :
    advList a ix probes = advList b ix probes := by
  induction probes with
  | nil => rfl
  | cons p ps ih =>
    rw [advList, advList]
    split
    · rfl
    · have hp := h p
      rcases hb : b.get? p with _ | o
      · rw [hb] at hp
        rcases ha : a.get? p with _ | o'
        · rfl
        · rw [ha] at hp; cases hp
      · rw [hb] at hp
        rcases ha : a.get? p with _ | o'
        · rw [ha] at hp; cases hp
        · rw [ha] at hp
          cases o with
          | none =>
            cases o' with
            | none => exact ih
            | some x => simp at hp
          | some y =>
            cases o' with
            | none => simp at hp
            | some x => rfl

theorem advance_congr {α β : Type} {a : List (Option α)} {b : List (Option β)}
    (h : ∀ i, (a.get? i).map Option.isSome = (b.get? i).map Option.isSome)
    (M ix : Nat) : advance M a ix = advance M b ix :=
  advList_congr h ix (probeSeq M ix)

/-!
### Auxiliary list lemmas
-/

theorem get?_set_self {α : Type} (l : List α) (i : Nat) (a : α)
    (h : i < l.length) : (l.set i a).get? i = some a := by
  rw [List.get?_eq_getElem?]
  simp [List.getElem?_set, h]

theorem get?_set_ne {α : Type} (l : List α) {i j : Nat} (a : α)
    (h : i ≠ j) : (l.set i a).get? j = l.get? j := by
  rw [List.get?_eq_getElem?, List.get?_eq_getElem?]
  simp [List.getElem?_set, h]

theorem mergedCnt_append (m : List (Nat × Nat)) (b : Nat × Nat) (s : Nat) :
    mergedCnt (m ++ [b]) s = mergedCnt m s + if b.1 = s then 1 else 0 := by
  unfold mergedCnt
  rw [List.filter_append, List.length_append]
  by_cases h : b.1 = s <;> simp [h]

theorem mergedCnt_nil (s : Nat) : mergedCnt [] s = 0 := rfl

/-- Length of a merged list as the sum of its per-source counts. -/
theorem length_eq_sum_mergedCnt (N : Nat) :
    ∀ m : List (Nat × Nat), (∀ b ∈ m, b.1 < N) →
    m.length = ∑ s ∈ Finset.range N, mergedCnt m s := by
  intro m
  induction m with
  | nil => intro _; simp [mergedCnt]
  | cons b t ih =>
    intro h
    have hb : b.1 < N := h b (List.mem_cons_self _ _)
    have ht := ih (fun x hx => h x (List.mem_cons_of_mem _ hx))
    have hcnt : ∀ s, mergedCnt (b :: t) s = mergedCnt t s + if b.1 = s then 1 else 0 := by
      intro s
      unfold mergedCnt
      by_cases hs : b.1 = s <;> simp [List.filter_cons, hs]
    calc (b :: t).length = t.length + 1 := by simp
    _ = (∑ s ∈ Finset.range N, mergedCnt t s) +
        ∑ s ∈ Finset.range N, (if b.1 = s then 1 else 0) := by
        rw [ht, Finset.sum_ite_eq (Finset.range N) b.1 (fun _ => 1)]
        simp [Finset.mem_range.2 hb]
    _ = ∑ s ∈ Finset.range N, mergedCnt (b :: t) s := by
        rw [← Finset.sum_add_distrib]
        exact Finset.sum_congr rfl (fun s _ => (hcnt s).symm)

/-- A merged list whose per-source restrictions are initial segments has no
duplicate block. -/
theorem nodup_of_srcOrd (m : List (Nat × Nat))
    (h : ∀ s, m.filter (fun b => b.1 == s) =
      (List.range' 1 (mergedCnt m s)).map (fun k => (s, k))) : m.Nodup := by
  rw [List.nodup_iff_sublist]
  intro b hsub
  have hnd : ((List.range' 1 (mergedCnt m b.1)).map (fun k => (b.1, k))).Nodup := by
    refine List.Nodup.map ?_ (List.nodup_range' ..)
    intro x y hxy
    exact (Prod.mk.injEq .. ▸ hxy).2
  have hsub2 := hsub.filter (fun x => x.1 == b.1)
  rw [h b.1] at hsub2
  have hfb : [b, b].filter (fun x => x.1 == b.1) = [b, b] := by simp
  rw [hfb] at hsub2
  exact (List.nodup_iff_sublist.1 hnd) b hsub2

/-!
### The canonical-machine invariant
-/

/-- Invariant of the canonical machine (and of the shared control state of
both mergers) for a configuration with `M` slots and per-source block
counts `counts`. -/
structure CINV (M : Nat) (counts : List Nat) (c : CState) : Prop where
  lenA : c.active.length = M
  idxLt : c.idx < M
  occLt : ∀ i s, c.active.get? i = some (some s) → s < counts.length
  occCnt : ∀ i s, c.active.get? i = some (some s) →
    mergedCnt c.merged s < counts.getD s 0
  occInj : ∀ i j s, c.active.get? i = some (some s) →
    c.active.get? j = some (some s) → i = j
  pendLt : ∀ s ∈ c.pending, s < counts.length
  pendCnt : ∀ s ∈ c.pending, mergedCnt c.merged s = 0
  pendOcc : ∀ s ∈ c.pending, ∀ i, c.active.get? i ≠ some (some s)
  pendNd : c.pending.Nodup
  finCnt : ∀ s, s < counts.length → (∀ i, c.active.get? i ≠ some (some s)) →
    s ∉ c.pending → mergedCnt c.merged s = counts.getD s 0
  srcOrd : ∀ s, c.merged.filter (fun b => b.1 == s) =
    (List.range' 1 (mergedCnt c.merged s)).map (fun k => (s, k))
  memLt : ∀ b ∈ c.merged, b.1 < counts.length
  cur : (∃ x, c.active.get? c.idx = some (some x)) ∨
    (∀ i s, c.active.get? i ≠ some (some s))
  noneP : (∃ i, c.active.get? i = some none) → c.pending = []

theorem getD_pos {counts : List Nat} (hcts : ∀ x ∈ counts, 0 < x)
    {t : Nat} (ht : t < counts.length) : 0 < counts.getD t 0 := by
  rw [List.getD_eq_getElem?_getD, List.getElem?_eq_getElem ht]
  exact hcts _ (List.getElem_mem ht)

/-- After a successful advance, either the new slot is occupied or no slot
at all is occupied. -/
theorem cur_of_advance {M : Nat} {A : List (Option Nat)} {ix j : Nat}
    (hixM : ix < M) (hlen : A.length = M)
    (hadv : advance M A ix = .ok j) :
    (∃ x, A.get? j = some (some x)) ∨ (∀ i t, A.get? i ≠ some (some t)) := by
  rcases advance_spec hadv with hji | hocc'
  · subst hji
    have hixlen : j < A.length := hlen ▸ hixM
    rcases hAix : A.get? j with _ | o
    · rw [List.get?_eq_getElem?, List.getElem?_eq_getElem hixlen] at hAix
      cases hAix
    · cases o with
      | some t => exact Or.inl ⟨t, rfl⟩
      | none =>
        refine Or.inr (fun i t hit => ?_)
        by_cases hi : i = j
        · rw [hi, hAix] at hit; cases hit
        · by_cases hiM : i < M
          · rw [advance_wrap hixM hadv i hiM hi] at hit; cases hit
          · rw [List.get?_eq_getElem?, List.getElem?_eq_none (by omega)] at hit
            cases hit
  · exact Or.inl hocc'

/-- The merge section preserves the invariant when the current slot is
occupied and the submitted block is the occupant's next one: the advance
loop succeeds, the output grows by exactly that block, and the new state
again satisfies the invariant. -/
theorem CINV_mergeAt {M : Nat} {counts : List Nat} {c : CState} {s : Nat}
    (hcts : ∀ x ∈ counts, 0 < x)
    (hinv : CINV M counts c) (hocc : c.active.get? c.idx = some (some s)) :
    ∃ c', mergeAt M c s (mergedCnt c.merged s + 1)
        ((mergedCnt c.merged s + 1) == counts.getD s 0) = (c', none) ∧
      CINV M counts c' ∧
      c'.merged = c.merged ++ [(s, mergedCnt c.merged s + 1)] ∧
      c'.active = (if (mergedCnt c.merged s + 1) == counts.getD s 0
        then c.active.set c.idx c.pending.head? else c.active) ∧
      c'.pending = (if (mergedCnt c.merged s + 1) == counts.getD s 0
        then c.pending.tail else c.pending) ∧
      advance M c'.active c.idx = .ok c'.idx := by
  have hsN : s < counts.length := hinv.occLt _ _ hocc
  have hcnt : mergedCnt c.merged s < counts.getD s 0 := hinv.occCnt _ _ hocc
  have hixlen : c.idx < c.active.length := hinv.lenA ▸ hinv.idxLt
  have hmc : ∀ t, mergedCnt (c.merged ++ [(s, mergedCnt c.merged s + 1)]) t =
      mergedCnt c.merged t + if s = t then 1 else 0 :=
    fun t => mergedCnt_append c.merged (s, mergedCnt c.merged s + 1) t
  have hmcs : mergedCnt (c.merged ++ [(s, mergedCnt c.merged s + 1)]) s =
      mergedCnt c.merged s + 1 := by rw [hmc s]; simp
  have hmcne : ∀ t, t ≠ s →
      mergedCnt (c.merged ++ [(s, mergedCnt c.merged s + 1)]) t =
      mergedCnt c.merged t := by
    intro t ht; rw [hmc t]; simp [Ne.symm ht]
  have hsrcOrd : ∀ t, (c.merged ++ [(s, mergedCnt c.merged s + 1)]).filter
      (fun b => b.1 == t) =
      (List.range' 1 (mergedCnt (c.merged ++ [(s, mergedCnt c.merged s + 1)]) t)).map
        (fun n => (t, n)) := by
    intro t
    by_cases ht : t = s
    · subst ht
      rw [List.filter_append, hinv.srcOrd t, hmcs, List.range'_1_concat,
        List.map_append]
      simp [Nat.add_comm]
    · rw [List.filter_append, hinv.srcOrd t, hmcne t ht]
      simp [Ne.symm ht]
  have hmemLt : ∀ b ∈ c.merged ++ [(s, mergedCnt c.merged s + 1)],
      b.1 < counts.length := by
    intro b hb
    rcases List.mem_append.1 hb with h | h
    · exact hinv.memLt b h
    · rcases List.mem_singleton.1 h with rfl; exact hsN
  rcases (Bool.eq_false_or_eq_true
      ((mergedCnt c.merged s + 1) == counts.getD s 0)).symm with hfb | hfb
  · -- non-final block: the slot table and the pending queue are unchanged
    have hkne : mergedCnt c.merged s + 1 ≠ counts.getD s 0 := by
      rw [← beq_eq_false_iff_ne (a := mergedCnt c.merged s + 1) (b := counts.getD s 0)]
      exact hfb
    obtain ⟨j, hadv, hjlt⟩ := @advance_ok Nat M c.active c.idx hinv.idxLt
      (le_of_eq hinv.lenA.symm)
    refine ⟨{ active := c.active, pending := c.pending, idx := j,
              merged := c.merged ++ [(s, mergedCnt c.merged s + 1)] }, ?_, ?_, rfl, ?_, ?_, ?_⟩
    · rw [hfb]; simp [mergeAt, hadv]
    · refine ⟨hinv.lenA, hjlt, hinv.occLt, ?_, hinv.occInj, hinv.pendLt, ?_,
        hinv.pendOcc, hinv.pendNd, ?_, hsrcOrd, hmemLt, ?_, hinv.noneP⟩
      · intro i t hit
        by_cases ht : t = s
        · subst ht
          rw [hmcs]
          have := hinv.occCnt i t hit
          omega
        · rw [hmcne t ht]; exact hinv.occCnt i t hit
      · intro t ht
        have hts : t ≠ s := by
          intro he; subst he
          exact hinv.pendOcc t ht c.idx hocc
        rw [hmcne t hts]; exact hinv.pendCnt t ht
      · intro t htN hto htp
        have hts : t ≠ s := by
          intro he; subst he; exact hto c.idx hocc
        rw [hmcne t hts]; exact hinv.finCnt t htN hto htp
      · exact cur_of_advance hinv.idxLt hinv.lenA hadv
    · rw [hfb]; simp
    · rw [hfb]; simp
    · simpa using hadv
  · -- final block: the slot is refilled from the pending queue or emptied
    have hkeq : mergedCnt c.merged s + 1 = counts.getD s 0 := by
      rw [← beq_iff_eq (a := mergedCnt c.merged s + 1) (b := counts.getD s 0)]
      exact hfb
    have hAlen : (c.active.set c.idx c.pending.head?).length = M := by
      simp [hinv.lenA]
    obtain ⟨j, hadv, hjlt⟩ := @advance_ok Nat M (c.active.set c.idx c.pending.head?) c.idx
      hinv.idxLt (le_of_eq hAlen.symm)
    have hAne : ∀ i, i ≠ c.idx →
        (c.active.set c.idx c.pending.head?).get? i = c.active.get? i := by
      intro i hi; exact get?_set_ne _ _ (Ne.symm hi)
    have hAix : (c.active.set c.idx c.pending.head?).get? c.idx =
        some c.pending.head? := get?_set_self _ _ _ hixlen
    refine ⟨{ active := c.active.set c.idx c.pending.head?, pending := c.pending.tail,
              idx := j,
              merged := c.merged ++ [(s, mergedCnt c.merged s + 1)] }, ?_, ?_, rfl, ?_, ?_, ?_⟩
    · rw [hfb]; simp [mergeAt, hadv]
    · have hcur := cur_of_advance hinv.idxLt hAlen hadv
      cases hp : c.pending with
      | nil =>
        rw [hp] at hAlen hAne hAix hadv hcur
        simp only [List.head?_nil, List.tail_nil] at hAlen hAne hAix hadv hcur ⊢
        refine ⟨hAlen, hjlt, ?_, ?_, ?_, ?_, ?_, ?_, ?_, ?_, hsrcOrd, hmemLt, hcur, ?_⟩
        · intro i t hit
          by_cases hi : i = c.idx
          · rw [hi, hAix] at hit; cases hit
          · exact hinv.occLt i t ((hAne i hi) ▸ hit)
        · intro i t hit
          by_cases hi : i = c.idx
          · rw [hi, hAix] at hit; cases hit
          · have h1 := (hAne i hi) ▸ hit
            have hts : t ≠ s := by
              intro he; subst he
              exact hi (hinv.occInj i c.idx t h1 hocc)
            rw [hmcne t hts]; exact hinv.occCnt i t h1
        · intro i i' t h1 h2
          by_cases hi : i = c.idx
          · rw [hi, hAix] at h1; cases h1
          · by_cases hi' : i' = c.idx
            · rw [hi', hAix] at h2; cases h2
            · exact hinv.occInj i i' t ((hAne i hi) ▸ h1) ((hAne i' hi') ▸ h2)
        · intro t ht; exact absurd ht (List.not_mem_nil t)
        · intro t ht; exact absurd ht (List.not_mem_nil t)
        · intro t ht; exact absurd ht (List.not_mem_nil t)
        · exact List.nodup_nil
        · intro t htN hto _
          by_cases hts : t = s
          · subst hts; rw [hmcs, hkeq]
          · rw [hmcne t hts]
            refine hinv.finCnt t htN ?_ (by rw [hp]; exact List.not_mem_nil t)
            intro i hit
            by_cases hi : i = c.idx
            · rw [hi, hocc] at hit; cases hit; exact hts rfl
            · exact hto i ((hAne i hi).symm ▸ hit)
        · intro _; rfl
      | cons p ps =>
        rw [hp] at hAlen hAne hAix hadv hcur
        simp only [List.head?_cons, List.tail_cons] at hAlen hAne hAix hadv hcur ⊢
        have hpmem : p ∈ c.pending := by rw [hp]; exact List.mem_cons_self _ _
        have hpN : p < counts.length := hinv.pendLt p hpmem
        have hpcnt : mergedCnt c.merged p = 0 := hinv.pendCnt p hpmem
        have hpOcc : ∀ i, c.active.get? i ≠ some (some p) := hinv.pendOcc p hpmem
        have hps : p ∉ ps := by
          have := hinv.pendNd; rw [hp] at this; exact (List.nodup_cons.1 this).1
        have hpsNd : ps.Nodup := by
          have := hinv.pendNd; rw [hp] at this; exact (List.nodup_cons.1 this).2
        have hpns : p ≠ s := fun he => hpOcc c.idx (he ▸ hocc)
        refine ⟨hAlen, hjlt, ?_, ?_, ?_, ?_, ?_, ?_, ?_, ?_, hsrcOrd, hmemLt, hcur, ?_⟩
        · intro i t hit
          by_cases hi : i = c.idx
          · rw [hi, hAix] at hit; cases hit; exact hpN
          · exact hinv.occLt i t ((hAne i hi) ▸ hit)
        · intro i t hit
          by_cases hi : i = c.idx
          · rw [hi, hAix] at hit; cases hit
            rw [hmcne p hpns, hpcnt]
            exact getD_pos hcts hpN
          · have h1 := (hAne i hi) ▸ hit
            have hts : t ≠ s := by
              intro he; subst he
              exact hi (hinv.occInj i c.idx t h1 hocc)
            rw [hmcne t hts]; exact hinv.occCnt i t h1
        · intro i i' t h1 h2
          by_cases hi : i = c.idx
          · by_cases hi' : i' = c.idx
            · rw [hi, hi']
            · rw [hi, hAix] at h1; cases h1
              exact absurd ((hAne i' hi') ▸ h2) (hpOcc i')
          · by_cases hi' : i' = c.idx
            · rw [hi', hAix] at h2; cases h2
              exact absurd ((hAne i hi) ▸ h1) (hpOcc i)
            · exact hinv.occInj i i' t ((hAne i hi) ▸ h1) ((hAne i' hi') ▸ h2)
        · intro t ht
          exact hinv.pendLt t (by rw [hp]; exact List.mem_cons_of_mem _ ht)
        · intro t ht
          have htmem : t ∈ c.pending := by rw [hp]; exact List.mem_cons_of_mem _ ht
          have hts : t ≠ s := by
            intro he; subst he
            exact hinv.pendOcc t htmem c.idx hocc
          rw [hmcne t hts]; exact hinv.pendCnt t htmem
        · intro t ht i
          have htmem : t ∈ c.pending := by rw [hp]; exact List.mem_cons_of_mem _ ht
          by_cases hi : i = c.idx
          · rw [hi, hAix]
            intro he; cases he
            exact hps ht
          · rw [hAne i hi]; exact hinv.pendOcc t htmem i
        · exact hpsNd
        · intro t htN hto htp
          by_cases hts : t = s
          · subst hts; rw [hmcs, hkeq]
          · have htnp : t ≠ p := by
              intro he; subst he
              exact hto c.idx hAix
            rw [hmcne t hts]
            refine hinv.finCnt t htN ?_ ?_
            · intro i hit
              by_cases hi : i = c.idx
              · rw [hi, hocc] at hit; cases hit; exact hts rfl
              · exact hto i ((hAne i hi).symm ▸ hit)
            · rw [hp]; intro hmem
              rcases List.mem_cons.1 hmem with h | h
              · exact htnp h
              · exact htp h
        · intro ⟨i, hi⟩
          by_cases hix : i = c.idx
          · rw [hix, hAix] at hi; cases hi
          · have := hinv.noneP ⟨i, (hAne i hix) ▸ hi⟩
            rw [hp] at this; cases this
    · rw [hfb]; simp
    · rw [hfb]; simp
    · simpa using hadv

/-- The initial state satisfies the invariant (for the code's documented
regime `1 ≤ M ≤ N` with at least one block per source). -/
theorem CINV_init {M : Nat} {counts : List Nat} (hM : 0 < M)
    (hMN : M ≤ counts.length) (hcts : ∀ x ∈ counts, 0 < x) :
    CINV M counts (initC M (List.range counts.length)) := by
  have hact : ∀ i, ((List.range counts.length).take M |>.map some).get? i =
      if i < M then some (some i) else none := by
    intro i
    rw [List.get?_eq_getElem?, List.getElem?_map, List.take_range,
      Nat.min_eq_left hMN]
    by_cases h : i < M
    · rw [List.getElem?_range h]; simp [h]
    · rw [List.getElem?_eq_none (by simpa using h)]; simp [h]
  have hpend : ∀ s, s ∈ (List.range counts.length).drop M ↔
      M ≤ s ∧ s < counts.length := by
    intro s
    rw [drop_range_eq, List.mem_range'_1]
    omega
  refine ⟨?_, hM, ?_, ?_, ?_, ?_, ?_, ?_, ?_, ?_, ?_, ?_, ?_, ?_⟩
  · simp [initC, List.take_range, Nat.min_eq_left hMN]
  · intro i s h
    rw [initC] at h; rw [hact i] at h
    by_cases hi : i < M
    · rw [if_pos hi] at h; cases h; omega
    · rw [if_neg hi] at h; cases h
  · intro i s h
    rw [initC] at h; rw [hact i] at h
    by_cases hi : i < M
    · rw [if_pos hi] at h; cases h
      exact getD_pos hcts (by omega)
    · rw [if_neg hi] at h; cases h
  · intro i j s h1 h2
    rw [initC] at h1 h2; rw [hact i] at h1; rw [hact j] at h2
    by_cases hi : i < M
    · rw [if_pos hi] at h1; cases h1
      by_cases hj : j < M
      · rw [if_pos hj] at h2; cases h2; rfl
      · rw [if_neg hj] at h2; cases h2
    · rw [if_neg hi] at h1; cases h1
  · intro s hs; exact ((hpend s).1 hs).2
  · intro s _; rfl
  · intro s hs i
    have := (hpend s).1 hs
    rw [initC]; rw [hact i]
    by_cases hi : i < M
    · rw [if_pos hi]; intro h; cases h; omega
    · rw [if_neg hi]; intro h; cases h
  · exact (List.nodup_range _).sublist (List.drop_sublist _ _)
  · intro s hsN hno hnp
    by_cases hs : s < M
    · exact absurd (by rw [initC]; rw [hact s]; rw [if_pos hs]) (hno s)
    · exact absurd ((hpend s).2 ⟨by omega, hsN⟩) hnp
  · intro s; rfl
  · intro b hb; cases hb
  · refine Or.inl ⟨0, ?_⟩
    rw [initC]; rw [hact 0]; rw [if_pos hM]
  · intro ⟨i, hi⟩
    rw [initC] at hi; rw [hact i] at hi
    by_cases h : i < M
    · rw [if_pos h] at hi; cases hi
    · rw [if_neg h] at hi; cases hi

/-- Unfolding of the forced step when the current slot is occupied. -/
theorem forcedStep_some {M : Nat} {counts : List Nat} {c : CState} {s : Nat}
    (hcts : ∀ x ∈ counts, 0 < x)
    (hinv : CINV M counts c) (hocc : c.active.get? c.idx = some (some s)) :
    ∃ c', forcedStep M counts c = some c' ∧ CINV M counts c' ∧
      c'.merged = c.merged ++ [(s, mergedCnt c.merged s + 1)] ∧
      c'.active = (if (mergedCnt c.merged s + 1) == counts.getD s 0
        then c.active.set c.idx c.pending.head? else c.active) ∧
      c'.pending = (if (mergedCnt c.merged s + 1) == counts.getD s 0
        then c.pending.tail else c.pending) ∧
      advance M c'.active c.idx = .ok c'.idx := by
  obtain ⟨c', hstep, hinv', hm, ha, hp, hadv⟩ := CINV_mergeAt hcts hinv hocc
  refine ⟨c', ?_, hinv', hm, ha, hp, hadv⟩
  rw [forcedStep, hocc]
  simp only [hstep]

/-- Per-source progress is bounded by the per-source block count. -/
theorem cnt_le_counts {M : Nat} {counts : List Nat} {c : CState}
    (hinv : CINV M counts c) :
    ∀ s, s < counts.length → mergedCnt c.merged s ≤ counts.getD s 0 := by
  intro s hs
  by_cases hoc : ∃ i, c.active.get? i = some (some s)
  · obtain ⟨i, hi⟩ := hoc
    exact le_of_lt (hinv.occCnt i s hi)
  · push_neg at hoc
    by_cases hp : s ∈ c.pending
    · rw [hinv.pendCnt s hp]; exact Nat.zero_le _
    · exact le_of_eq (hinv.finCnt s hs hoc hp)

theorem sum_eq_sum_getD (counts : List Nat) :
    counts.sum = ∑ s ∈ Finset.range counts.length, counts.getD s 0 := by
  induction counts with
  | nil => simp
  | cons x t ih =>
    rw [List.sum_cons, List.length_cons, Finset.sum_range_succ', ih]
    simp [Nat.add_comm]

/-- An unoccupied turn slot together with an unfinished source is
impossible: some slot is always occupied while work remains. -/
theorem exists_occ_of_unfinished {M : Nat} {counts : List Nat} {c : CState}
    (hM : 0 < M) (hinv : CINV M counts c) {s : Nat} (hs : s < counts.length)
    (hlt : mergedCnt c.merged s < counts.getD s 0) :
    ∃ t, c.active.get? c.idx = some (some t) := by
  rcases hinv.cur with ⟨x, hx⟩ | hnone
  · exact ⟨x, hx⟩
  · exfalso
    have hsp : s ∈ c.pending := by
      by_contra hnp
      exact absurd (hinv.finCnt s hs (hnone · s) hnp) (Nat.ne_of_lt hlt)
    have h0 : c.active.length = M := hinv.lenA
    rcases h00 : c.active.get? 0 with _ | o
    · rw [List.get?_eq_getElem?, List.getElem?_eq_getElem (by omega)] at h00
      cases h00
    · cases o with
      | some t => exact hnone 0 t h00
      | none =>
        have := hinv.noneP ⟨0, h00⟩
        rw [this] at hsp
        cases hsp

/-- The canonical machine makes `totalBlocks` successful steps, preserving
the invariant, with one block merged per step. -/
theorem canonSt_spec {M : Nat} {counts : List Nat} (hM : 0 < M)
    (hMN : M ≤ counts.length) (hcts : ∀ x ∈ counts, 0 < x) :
    ∀ n, n ≤ totalBlocks counts →
    ∃ c, canonSt M counts n = some c ∧ CINV M counts c ∧ c.merged.length = n := by
  intro n
  induction n with
  | zero =>
    intro _
    exact ⟨_, rfl, CINV_init hM hMN hcts, rfl⟩
  | succ n ih =>
    intro hn
    obtain ⟨c, hc, hinv, hlen⟩ := ih (Nat.le_of_succ_le hn)
    have hsum : c.merged.length = ∑ s ∈ Finset.range counts.length,
        mergedCnt c.merged s :=
      length_eq_sum_mergedCnt counts.length c.merged hinv.memLt
    have htot : (∑ s ∈ Finset.range counts.length, mergedCnt c.merged s) <
        ∑ s ∈ Finset.range counts.length, counts.getD s 0 := by
      rw [← hsum, ← sum_eq_sum_getD, hlen]
      exact hn
    obtain ⟨s, hsmem, hslt⟩ := Finset.exists_lt_of_sum_lt htot
    obtain ⟨t, ht⟩ := exists_occ_of_unfinished hM hinv (Finset.mem_range.1 hsmem) hslt
    obtain ⟨c', hstep, hinv', hm, _, _, _⟩ := forcedStep_some hcts hinv ht
    refine ⟨c', ?_, hinv', ?_⟩
    · rw [canonSt, hc]
      simp [hstep]
    · rw [hm, List.length_append, hlen]; rfl

/-- At `totalBlocks` steps the canonical machine has merged every block of
every source. -/
theorem canonOut_spec {M : Nat} {counts : List Nat} (hM : 0 < M)
    (hMN : M ≤ counts.length) (hcts : ∀ x ∈ counts, 0 < x) :
    ∃ c, canonSt M counts (totalBlocks counts) = some c ∧ CINV M counts c ∧
      c.merged = canonOut M counts ∧
      (∀ s, s < counts.length → mergedCnt c.merged s = counts.getD s 0) := by
  obtain ⟨c, hc, hinv, hlen⟩ := canonSt_spec hM hMN hcts (totalBlocks counts) le_rfl
  refine ⟨c, hc, hinv, ?_, ?_⟩
  · rw [canonOut, hc]
  · have hsum : c.merged.length = ∑ s ∈ Finset.range counts.length,
        mergedCnt c.merged s :=
      length_eq_sum_mergedCnt counts.length c.merged hinv.memLt
    have heq : (∑ s ∈ Finset.range counts.length, mergedCnt c.merged s) =
        ∑ s ∈ Finset.range counts.length, counts.getD s 0 := by
      rw [← hsum, hlen, totalBlocks, sum_eq_sum_getD]
    have hle : ∀ s ∈ Finset.range counts.length,
        mergedCnt c.merged s ≤ counts.getD s 0 :=
      fun s hs => cnt_le_counts hinv s (Finset.mem_range.1 hs)
    intro s hs
    exact (Finset.sum_eq_sum_iff_of_le hle).1 heq s (Finset.mem_range.2 hs)

/-- Conservation: the canonical output contains exactly `totalBlocks`
blocks. -/
theorem canonOut_length {M : Nat} {counts : List Nat} (hM : 0 < M)
    (hMN : M ≤ counts.length) (hcts : ∀ x ∈ counts, 0 < x) :
    (canonOut M counts).length = totalBlocks counts := by
  obtain ⟨c, hc, hinv, hm, _⟩ := canonOut_spec hM hMN hcts
  obtain ⟨c', hc', _, hlen⟩ := canonSt_spec hM hMN hcts (totalBlocks counts) le_rfl
  rw [hc] at hc'; cases hc'
  rw [← hm, hlen]

/-- No block appears twice in the canonical output. -/
theorem canonOut_nodup {M : Nat} {counts : List Nat} (hM : 0 < M)
    (hMN : M ≤ counts.length) (hcts : ∀ x ∈ counts, 0 < x) :
    (canonOut M counts).Nodup := by
  obtain ⟨c, _, hinv, hm, _⟩ := canonOut_spec hM hMN hcts
  rw [← hm]
  exact nodup_of_srcOrd c.merged hinv.srcOrd

/-- No omission: the canonical output contains exactly the blocks
`(s, k)` with `s` a source and `1 ≤ k ≤ counts[s]`. -/
theorem canonOut_mem {M : Nat} {counts : List Nat} (hM : 0 < M)
    (hMN : M ≤ counts.length) (hcts : ∀ x ∈ counts, 0 < x) :
    ∀ s k, (s, k) ∈ canonOut M counts ↔
      s < counts.length ∧ 1 ≤ k ∧ k ≤ counts.getD s 0 := by
  obtain ⟨c, _, hinv, hm, hfin⟩ := canonOut_spec hM hMN hcts
  intro s k
  rw [← hm]
  constructor
  · intro h
    have hs : s < counts.length := hinv.memLt (s, k) h
    have hfil : (s, k) ∈ c.merged.filter (fun b => b.1 == s) :=
      List.mem_filter.2 ⟨h, by simp⟩
    rw [hinv.srcOrd s] at hfil
    obtain ⟨n, hn, he⟩ := List.mem_map.1 hfil
    cases he
    have := List.mem_range'_1.1 hn
    rw [hfin s hs] at this
    exact ⟨hs, this.1, by omega⟩
  · intro ⟨hs, h1, h2⟩
    have hk : k ∈ List.range' 1 (mergedCnt c.merged s) := by
      rw [hfin s hs]
      exact List.mem_range'_1.2 ⟨h1, by omega⟩
    have : (s, k) ∈ c.merged.filter (fun b => b.1 == s) := by
      rw [hinv.srcOrd s]
      exact List.mem_map.2 ⟨k, hk, rfl⟩
    exact List.mem_of_mem_filter this

/-!
### Dictionary lemmas for the queue variant's source-index map
-/

theorem dictGet_nil (t : Nat) : dictGet [] t = none := rfl

theorem dictGet_cons (e : Nat × Nat) (es : List (Nat × Nat)) (t : Nat) :
    dictGet (e :: es) t = if e.1 = t then some e.2 else dictGet es t := by
  rw [dictGet]
  by_cases h : e.1 = t
  · rw [List.find?_cons_of_pos _ (by simpa using h), if_pos h]
    rfl
  · rw [List.find?_cons_of_neg _ (by simpa using h), if_neg h]
    rfl

theorem dictDel_cons (e : Nat × Nat) (es : List (Nat × Nat)) (s : Nat) :
    dictDel (e :: es) s = if e.1 = s then es else e :: dictDel es s := by
  rw [dictDel, List.eraseP_cons]
  by_cases h : e.1 = s
  · simp [h, dictDel]
  · simp only [h, if_neg h]
    rw [show (e.1 == s) = false by simpa using h]
    rfl

theorem dictGet_append_ne (l : List (Nat × Nat)) {t p : Nat} (v : Nat)
    (h : t ≠ p) : dictGet (l ++ [(p, v)]) t = dictGet l t := by
  induction l with
  | nil =>
    rw [List.nil_append, dictGet_cons, if_neg (by simpa using Ne.symm h)]
  | cons e es ih =>
    rw [List.cons_append, dictGet_cons, dictGet_cons, ih]

theorem dictGet_append_self (l : List (Nat × Nat)) {p : Nat} (v : Nat)
    (h : dictGet l p = none) : dictGet (l ++ [(p, v)]) p = some v := by
  induction l with
  | nil => simp [dictGet_cons]
  | cons e es ih =>
    rw [dictGet_cons] at h
    rw [List.cons_append, dictGet_cons]
    by_cases he : e.1 = p
    · rw [if_pos he] at h; cases h
    · rw [if_neg he] at h
      rw [if_neg he]
      exact ih h

theorem dictGet_del_ne (l : List (Nat × Nat)) {t s : Nat}
    (h : t ≠ s) : dictGet (dictDel l s) t = dictGet l t := by
  induction l with
  | nil => rfl
  | cons e es ih =>
    rw [dictDel_cons, dictGet_cons]
    by_cases he : e.1 = s
    · rw [if_pos he]
      rw [if_neg (by rw [he]; exact Ne.symm h)]
    · rw [if_neg he, dictGet_cons, ih]

theorem dictGet_eq_none_iff (l : List (Nat × Nat)) (p : Nat) :
    dictGet l p = none ↔ p ∉ l.map Prod.fst := by
  induction l with
  | nil => simp [dictGet_nil]
  | cons e es ih =>
    rw [dictGet_cons, List.map_cons]
    by_cases he : e.1 = p
    · rw [if_pos he]
      simp [he]
    · rw [if_neg he]
      simp only [List.mem_cons, ih]
      constructor
      · intro hn hm
        rcases hm with hm | hm
        · exact he hm.symm
        · exact hn hm
      · intro hn
        exact fun hm => hn (Or.inr hm)

theorem dictGet_del_self (l : List (Nat × Nat)) (s : Nat)
    (hnd : (l.map Prod.fst).Nodup) : dictGet (dictDel l s) s = none := by
  induction l with
  | nil => rfl
  | cons e es ih =>
    rw [List.map_cons, List.nodup_cons] at hnd
    rw [dictDel_cons]
    by_cases he : e.1 = s
    · rw [if_pos he, dictGet_eq_none_iff, ← he]
      exact hnd.1
    · rw [if_neg he, dictGet_cons, if_neg he]
      exact ih hnd.2

theorem dictPut_fresh (l : List (Nat × Nat)) (p v : Nat)
    (h : dictGet l p = none) : dictPut l p v = l ++ [(p, v)] := by
  rw [dictPut, if_neg]
  intro hany
  obtain ⟨e, hmem, he⟩ := List.any_eq_true.1 hany
  have : p ∈ l.map Prod.fst :=
    List.mem_map.2 ⟨e, hmem, by simpa using he⟩
  exact (dictGet_eq_none_iff l p).1 h this

theorem dictDel_keys_sublist (l : List (Nat × Nat)) (s : Nat) :
    List.Sublist ((dictDel l s).map Prod.fst) (l.map Prod.fst) :=
  List.Sublist.map _ (List.eraseP_sublist l)

/-!
### The simulation invariant of the queue variant
-/

/-- Correspondence between a `block_merger2` state (with the producers'
submission counters) and a canonical control state. -/
structure QCorrCore (M : Nat) (counts : List Nat) (st : QState)
    (sub : List Nat) (c : CState) : Prop where
  mergedEq : c.merged = st.merged
  pendEq : c.pending = st.pending
  idxEq : c.idx = st.idx
  qLen : st.queues.length = M
  subLen : sub.length = counts.length
  occDict : ∀ i s, c.active.get? i = some (some s) → dictGet st.srcIx s = some i
  dictOcc : ∀ s i, dictGet st.srcIx s = some i → c.active.get? i = some (some s)
  noneEq : ∀ i, c.active.get? i = some none ↔ st.queues.get? i = some none
  bufEq : ∀ i s, c.active.get? i = some (some s) → st.queues.get? i =
    some (some ((List.range' (mergedCnt c.merged s + 1)
      (sub.getD s 0 - mergedCnt c.merged s)).map
      (fun k => (s, k, k == counts.getD s 0))))
  subGe : ∀ s, s < counts.length → mergedCnt c.merged s ≤ sub.getD s 0
  subLe : ∀ s, s < counts.length → sub.getD s 0 ≤ counts.getD s 0
  pendSub : ∀ s ∈ c.pending, sub.getD s 0 = 0
  keysNd : (st.srcIx.map Prod.fst).Nodup

/-- The state left behind by `__try_merge`: the merge loop has drained the
current slot's buffer, or every slot is permanently empty. -/
def QStuck (M : Nat) (st : QState) : Prop :=
  st.queues.get? st.idx = some (some []) ∨
    ∀ i, i < M → st.queues.get? i = some none

/-- The only error a valid queue-variant run ever records is the failed
`assert self.__queue[self.__index] is not None` once every slot has become
permanently empty. -/
def QErrOk (M : Nat) (st : QState) : Prop :=
  st.err = none ∨
    (st.err = some .emptyAssert ∧ ∀ i, i < M → st.queues.get? i = some none)

/-- Full simulation invariant of a queue-variant run. -/
def QINV (M : Nat) (counts : List Nat) (r : QRun) : Prop :=
  ∃ c, canonSt M counts r.st.merged.length = some c ∧ CINV M counts c ∧
    QCorrCore M counts r.st r.subCnt c ∧ QStuck M r.st ∧ QErrOk M r.st
/-- The advance loop sees the same shape on the canonical slot table and on
the queue list: `None` entries coincide and occupied slots carry buffers. -/
theorem shape_eq {M : Nat} {A : List (Option Nat)} {Q : List (Option (List BufEntry))}
    (hlA : A.length = M) (hlQ : Q.length = M)
    (hnone : ∀ i, A.get? i = some none ↔ Q.get? i = some none)
    (hbuf : ∀ i s, A.get? i = some (some s) → ∃ b, Q.get? i = some (some b)) :
    ∀ i, (A.get? i).map Option.isSome = (Q.get? i).map Option.isSome := by
  intro i
  by_cases hi : i < M
  · rcases hA : A.get? i with _ | o
    · rw [List.get?_eq_getElem?, List.getElem?_eq_getElem (by omega)] at hA
      cases hA
    · cases o with
      | some t =>
        obtain ⟨b, hb⟩ := hbuf i t hA
        rw [hb]; rfl
      | none =>
        rw [(hnone i).1 hA]; rfl
  · have h1 : A.get? i = none := by
      rw [List.get?_eq_getElem?, List.getElem?_eq_none]; omega
    have h2 : Q.get? i = none := by
      rw [List.get?_eq_getElem?, List.getElem?_eq_none]; omega
    rw [h1, h2]
    rfl

/-- Replacing a nonempty buffer by (at most) its tail strictly decreases the
total number of buffered entries. -/
theorem sumBuf_set_lt :
    ∀ (queues : List (Option (List BufEntry))) (i : Nat)
    (x : BufEntry) (rest : List BufEntry),
    queues.get? i = some (some (x :: rest)) →
    ∀ (q' : Option (List BufEntry)), (q'.getD []).length ≤ rest.length →
    ((queues.set i q').map (fun q => (q.getD []).length)).sum <
      (queues.map (fun q => (q.getD []).length)).sum := by
  intro queues
  induction queues with
  | nil => intro i x rest h; cases h
  | cons q t ih =>
    intro i x rest h q' hq
    cases i with
    | zero =>
      rw [List.get?_eq_getElem?] at h
      simp at h
      rw [List.set_cons_zero, List.map_cons, List.map_cons, List.sum_cons,
        List.sum_cons, h]
      have hlen : ((some (x :: rest) : Option (List BufEntry)).getD []).length
          = rest.length + 1 := by simp
      rw [hlen]
      omega
    | succ i =>
      rw [List.set_cons_succ, List.map_cons, List.map_cons, List.sum_cons,
        List.sum_cons]
      have := ih i x rest (by simpa using h) q' hq
      omega

/-- Simulation of the `__try_merge` loop: starting from a state that
corresponds to a canonical state, the loop merges exactly the canonical
blocks whose turn has come, finishing with a drained current buffer (or the
terminal assertion failure once every slot is permanently empty), and the
resulting state again corresponds to a canonical state. -/
theorem tryMergeGo_sim {M : Nat} {counts : List Nat}
    (hM : 0 < M) (hMN : M ≤ counts.length) (hcts : ∀ x ∈ counts, 0 < x) :
    ∀ fuel (st : QState) (sub : List Nat) (c : CState),
      totalBuf st < fuel →
      canonSt M counts st.merged.length = some c →
      CINV M counts c →
      QCorrCore M counts st sub c →
      st.err = none →
      ∃ c', canonSt M counts (tryMergeGo M fuel st).merged.length = some c' ∧
        CINV M counts c' ∧
        QCorrCore M counts (tryMergeGo M fuel st) sub c' ∧
        QStuck M (tryMergeGo M fuel st) ∧ QErrOk M (tryMergeGo M fuel st) := by
  intro fuel
  induction fuel with
  | zero => intro st sub c hfuel; omega
  | succ fuel ih =>
    intro st sub c hfuel hcanon hinv hcore herr
    have hidx : st.idx = c.idx := hcore.idxEq.symm
    have hidxM : st.idx < M := hidx ▸ hinv.idxLt
    have hidxQ : st.idx < st.queues.length := by rw [hcore.qLen]; exact hidxM
    rcases hA : c.active.get? c.idx with _ | o
    · rw [List.get?_eq_getElem?,
        List.getElem?_eq_getElem (by rw [hinv.lenA]; exact hinv.idxLt)] at hA
      cases hA
    · cases o with
      | none =>
        -- the current slot is permanently empty: `assert ... is not None` fires
        have hq0 : st.queues.get? st.idx = some none := by
          rw [← hidx] at hA
          exact (hcore.noneEq st.idx).1 hA
        have hallnone : ∀ i, i < M → st.queues.get? i = some none := by
          have hnocc : ∀ i t, c.active.get? i ≠ some (some t) := by
            rcases hinv.cur with ⟨x, hx⟩ | h
            · rw [hA] at hx; cases hx
            · exact h
          intro i hiM
          rcases hAi : c.active.get? i with _ | oi
          · rw [List.get?_eq_getElem?,
              List.getElem?_eq_getElem (by rw [hinv.lenA]; exact hiM)] at hAi
            cases hAi
          · cases oi with
            | some t => exact absurd hAi (hnocc i t)
            | none => exact (hcore.noneEq i).1 hAi
        have hred : tryMergeGo M (fuel + 1) st =
            { st with err := some .emptyAssert } := by
          rw [tryMergeGo, hq0, herr]
          rfl
        rw [hred]
        refine ⟨c, hcanon, hinv, ?_, Or.inr hallnone, Or.inr ⟨rfl, hallnone⟩⟩
        exact ⟨hcore.mergedEq, hcore.pendEq, hcore.idxEq, hcore.qLen,
          hcore.subLen, hcore.occDict, hcore.dictOcc, hcore.noneEq, hcore.bufEq,
          hcore.subGe, hcore.subLe, hcore.pendSub, hcore.keysNd⟩
      | some t =>
        have htN : t < counts.length := hinv.occLt _ _ hA
        have hm : mergedCnt c.merged t < counts.getD t 0 := hinv.occCnt _ _ hA
        have hbuf := hcore.bufEq c.idx t hA
        rw [← hidx] at hbuf
        rcases hv : sub.getD t 0 - mergedCnt c.merged t with _ | v
        · -- the current buffer is drained: the loop exits via `queue.Empty`
          have hq0 : st.queues.get? st.idx = some (some []) := by
            rw [hbuf, hv]
            rfl
          have hred : tryMergeGo M (fuel + 1) st = st := by
            rw [tryMergeGo, hq0]
          rw [hred]
          exact ⟨c, hcanon, hinv, hcore, Or.inl hq0, Or.inl herr⟩
        · -- the current buffer holds the occupant's next block: merge it
          have hq0 : st.queues.get? st.idx = some (some
              ((t, mergedCnt c.merged t + 1,
                (mergedCnt c.merged t + 1) == counts.getD t 0) ::
               (List.range' (mergedCnt c.merged t + 2) v).map
                 (fun k => (t, k, k == counts.getD t 0)))) := by
            rw [hbuf, hv, List.range'_succ, List.map_cons]
          obtain ⟨c1, hstep, hinv1, hm1, ha1, hp1, hadv1⟩ :=
            forcedStep_some hcts hinv hA
          have hcanon1 : canonSt M counts (st.merged.length + 1) = some c1 := by
            have : canonSt M counts (st.merged.length + 1) =
                (canonSt M counts st.merged.length).bind (forcedStep M counts) :=
              rfl
            rw [this, hcanon]
            simp [hstep]
          have hsubt : mergedCnt c.merged t + 1 ≤ sub.getD t 0 := by omega
          have hmerged1 : c1.merged = st.merged ++ [(t, mergedCnt c.merged t + 1)] := by
            rw [hm1, hcore.mergedEq]
          have hlen1 : c1.merged.length = st.merged.length + 1 := by
            rw [hmerged1, List.length_append]
            rfl
          have hmc1t : mergedCnt c1.merged t = mergedCnt c.merged t + 1 := by
            rw [hm1, mergedCnt_append]
            simp
          have hmc1ne : ∀ u, u ≠ t → mergedCnt c1.merged u = mergedCnt c.merged u := by
            intro u hu
            rw [hm1, mergedCnt_append]
            simp [Ne.symm hu]
          rcases (Bool.eq_false_or_eq_true
              ((mergedCnt c.merged t + 1) == counts.getD t 0)).symm with hfin | hfin
          · -- non-final block
            have ha1' : c1.active = c.active := by rw [ha1, hfin]; simp
            have hp1' : c1.pending = c.pending := by rw [hp1, hfin]; simp
            set rest := (List.range' (mergedCnt c.merged t + 2) v).map
              (fun k => (t, k, k == counts.getD t 0)) with hrest
            set st1 : QState :=
              { st with merged := st.merged ++ [(t, mergedCnt c.merged t + 1)]
                        queues := st.queues.set st.idx (some rest) } with hst1
            -- the queue-side advance agrees with the canonical advance
            have hshape : ∀ i, (c1.active.get? i).map Option.isSome =
                (st1.queues.get? i).map Option.isSome := by
              apply shape_eq (M := M)
              · rw [ha1']; exact hinv.lenA
              · show (st.queues.set st.idx (some rest)).length = M
                rw [List.length_set]; exact hcore.qLen
              · intro i
                show c1.active.get? i = some none ↔
                  (st.queues.set st.idx (some rest)).get? i = some none
                rw [ha1']
                by_cases hi : i = st.idx
                · subst hi
                  rw [get?_set_self _ _ _ hidxQ, hidx, hA]
                  constructor
                  · intro h; cases h
                  · intro h; cases h
                · rw [get?_set_ne _ _ (fun he => hi he.symm)]
                  exact hcore.noneEq i
              · intro i u hu
                rw [ha1'] at hu
                by_cases hi : i = st.idx
                · subst hi
                  exact ⟨rest, get?_set_self _ _ _ hidxQ⟩
                · rw [get?_set_ne _ _ (fun he => hi he.symm)]
                  exact ⟨_, hcore.bufEq i u hu⟩
            have hadvq : advance M (st.queues.set st.idx (some rest)) st.idx =
                .ok c1.idx := by
              have hc := advance_congr hshape M st.idx
              rw [hst1] at hc
              rw [← hc, hidx]
              exact hadv1
            have hred : tryMergeGo M (fuel + 1) st =
                tryMergeGo M fuel { st1 with idx := c1.idx } := by
              rw [tryMergeGo, hq0]
              simp only [hfin, Bool.false_eq_true, if_false, hadvq]
            rw [hred]
            have hfuel1 : totalBuf { st1 with idx := c1.idx } < fuel := by
              have hlt := sumBuf_set_lt st.queues st.idx _ _ hq0 (some rest)
                (by rfl)
              have : totalBuf { st1 with idx := c1.idx } =
                  ((st.queues.set st.idx (some rest)).map
                    (fun q => (q.getD []).length)).sum := rfl
              rw [this]
              have h2 : totalBuf st =
                  (st.queues.map (fun q => (q.getD []).length)).sum := rfl
              omega
            refine ih { st1 with idx := c1.idx } sub c1 hfuel1 ?_ hinv1 ?_ herr
            · show canonSt M counts
                (st.merged ++ [(t, mergedCnt c.merged t + 1)]).length = some c1
              rw [List.length_append]
              exact hcanon1
            · refine ⟨?_, ?_, rfl, ?_, hcore.subLen, ?_, ?_, ?_, ?_, ?_, ?_, ?_,
                hcore.keysNd⟩
              · exact hmerged1
              · rw [hp1', hcore.pendEq]
              · show (st.queues.set st.idx (some rest)).length = M
                rw [List.length_set]; exact hcore.qLen
              · intro i u hu
                rw [ha1'] at hu
                exact hcore.occDict i u hu
              · intro u i hu
                rw [ha1']
                exact hcore.dictOcc u i hu
              · intro i
                rw [ha1']
                show c.active.get? i = some none ↔
                  (st.queues.set st.idx (some rest)).get? i = some none
                by_cases hi : i = st.idx
                · subst hi
                  rw [get?_set_self _ _ _ hidxQ, hidx, hA]
                  constructor
                  · intro h; cases h
                  · intro h; cases h
                · rw [get?_set_ne _ _ (fun he => hi he.symm)]
                  exact hcore.noneEq i
              · intro i u hu
                rw [ha1'] at hu
                by_cases hi : i = st.idx
                · subst hi
                  rw [hidx] at hu
                  rw [hu] at hA
                  cases hA
                  show (st.queues.set st.idx (some rest)).get? st.idx = _
                  rw [get?_set_self _ _ _ hidxQ, hmc1t, hrest]
                  have hveq : sub.getD t 0 - (mergedCnt c.merged t + 1) = v := by
                    omega
                  rw [hveq]
                · have hut : u ≠ t := by
                    intro he; subst he
                    exact hi (by
                      have := hinv.occInj i c.idx u hu hA
                      rw [this, hidx])
                  show (st.queues.set st.idx (some rest)).get? i = _
                  rw [get?_set_ne _ _ (fun he => hi he.symm), hmc1ne u hut]
                  exact hcore.bufEq i u hu
              · intro u huN
                by_cases hut : u = t
                · subst hut
                  rw [hmc1t]
                  exact hsubt
                · rw [hmc1ne u hut]
                  exact hcore.subGe u huN
              · exact hcore.subLe
              · intro u hu
                rw [hp1'] at hu
                exact hcore.pendSub u hu
          · -- final block: the occupant leaves its slot
            have hkeq : mergedCnt c.merged t + 1 = counts.getD t 0 := by
              rw [← beq_iff_eq (a := mergedCnt c.merged t + 1)
                (b := counts.getD t 0)]
              exact hfin
            have hv0 : v = 0 := by
              have := hcore.subLe t htN
              omega
            have hrest0 : (List.range' (mergedCnt c.merged t + 2) v).map
                (fun k => (t, k, k == counts.getD t 0)) = [] := by
              rw [hv0]; rfl
            have hsubt' : sub.getD t 0 = mergedCnt c.merged t + 1 := by omega
            have hfreshDel : ∀ p, (∀ i, c.active.get? i ≠ some (some p)) → p ≠ t →
                dictGet (dictDel st.srcIx t) p = none := by
              intro p hpo hpt
              rw [dictGet_del_ne _ hpt]
              rcases hg : dictGet st.srcIx p with _ | i
              · rfl
              · exact absurd (hcore.dictOcc p i hg) (hpo i)
            cases hpc : c.pending with
            | nil =>
              have hpstnil : st.pending = [] := by rw [← hcore.pendEq, hpc]
              have ha1' : c1.active = c.active.set c.idx none := by
                rw [ha1, hfin, hpc]; simp
              have hp1' : c1.pending = [] := by
                rw [hp1, hfin, hpc]; simp
              set st1 : QState :=
                { st with merged := st.merged ++ [(t, mergedCnt c.merged t + 1)]
                          srcIx := dictDel st.srcIx t
                          queues := st.queues.set st.idx none } with hst1
              have hidxA : c.idx < c.active.length := hinv.lenA ▸ hinv.idxLt
              have hA1ne : ∀ i, i ≠ c.idx → c1.active.get? i = c.active.get? i := by
                intro i hi
                rw [ha1']
                exact get?_set_ne _ _ (fun he => hi he.symm)
              have hA1ix : c1.active.get? c.idx = some none := by
                rw [ha1']
                exact get?_set_self _ _ _ hidxA
              have hshape : ∀ i, (c1.active.get? i).map Option.isSome =
                  (st1.queues.get? i).map Option.isSome := by
                apply shape_eq (M := M)
                · rw [ha1']; simp [hinv.lenA]
                · show (st.queues.set st.idx none).length = M
                  rw [List.length_set]; exact hcore.qLen
                · intro i
                  show c1.active.get? i = some none ↔
                    (st.queues.set st.idx none).get? i = some none
                  by_cases hi : i = st.idx
                  · subst hi
                    rw [get?_set_self _ _ _ hidxQ, hidx, hA1ix]
                    simp
                  · rw [get?_set_ne _ _ (fun he => hi he.symm),
                      hA1ne i (fun he => hi (he.trans hidx.symm))]
                    exact hcore.noneEq i
                · intro i u hu
                  by_cases hi : i = st.idx
                  · subst hi
                    rw [hidx, hA1ix] at hu
                    cases hu
                  · show ∃ b, (st.queues.set st.idx none).get? i = some (some b)
                    rw [get?_set_ne _ _ (fun he => hi he.symm)]
                    rw [hA1ne i (fun he => hi (he.trans hidx.symm))] at hu
                    exact ⟨_, hcore.bufEq i u hu⟩
              have hadvq : advance M (st.queues.set st.idx none) st.idx =
                  .ok c1.idx := by
                have hc := advance_congr hshape M st.idx
                rw [hst1] at hc
                rw [← hc, hidx]
                exact hadv1
              have hred : tryMergeGo M (fuel + 1) st =
                  tryMergeGo M fuel { st1 with idx := c1.idx } := by
                rw [tryMergeGo, hq0, hrest0]
                simp only [hfin, if_true, hpstnil, hadvq]
              rw [hred]
              have hfuel1 : totalBuf { st1 with idx := c1.idx } < fuel := by
                have hlt := sumBuf_set_lt st.queues st.idx _ _ hq0 none
                  (by simp)
                have h1 : totalBuf { st1 with idx := c1.idx } =
                    ((st.queues.set st.idx none).map
                      (fun q => (q.getD []).length)).sum := rfl
                have h2 : totalBuf st =
                    (st.queues.map (fun q => (q.getD []).length)).sum := rfl
                omega
              refine ih { st1 with idx := c1.idx } sub c1 hfuel1 ?_ hinv1 ?_ herr
              · show canonSt M counts
                  (st.merged ++ [(t, mergedCnt c.merged t + 1)]).length = some c1
                rw [List.length_append]
                exact hcanon1
              · refine ⟨?_, ?_, rfl, ?_, hcore.subLen, ?_, ?_, ?_, ?_, ?_, ?_, ?_, ?_⟩
                · exact hmerged1
                · rw [hp1', hpstnil]
                · show (st.queues.set st.idx none).length = M
                  rw [List.length_set]; exact hcore.qLen
                · intro i u hu
                  by_cases hi : i = c.idx
                  · rw [hi, hA1ix] at hu; cases hu
                  · rw [hA1ne i hi] at hu
                    have hut : u ≠ t := by
                      intro he; subst he
                      exact hi (hinv.occInj i c.idx u hu hA)
                    show dictGet (dictDel st.srcIx t) u = some i
                    rw [dictGet_del_ne _ hut]
                    exact hcore.occDict i u hu
                · intro u i hu
                  show c1.active.get? i = some (some u)
                  by_cases hut : u = t
                  · subst hut
                    rw [dictGet_del_self st.srcIx u hcore.keysNd] at hu
                    cases hu
                  · rw [dictGet_del_ne _ hut] at hu
                    have := hcore.dictOcc u i hu
                    by_cases hi : i = c.idx
                    · rw [hi, hA] at this
                      cases this
                      exact absurd rfl hut
                    · rw [hA1ne i hi]
                      exact this
                · intro i
                  show c1.active.get? i = some none ↔
                    (st.queues.set st.idx none).get? i = some none
                  by_cases hi : i = st.idx
                  · subst hi
                    rw [get?_set_self _ _ _ hidxQ, hidx, hA1ix]
                    simp
                  · rw [get?_set_ne _ _ (fun he => hi he.symm),
                      hA1ne i (fun he => hi (he.trans hidx.symm))]
                    exact hcore.noneEq i
                · intro i u hu
                  by_cases hi : i = c.idx
                  · rw [hi, hA1ix] at hu; cases hu
                  · rw [hA1ne i hi] at hu
                    have hut : u ≠ t := by
                      intro he; subst he
                      exact hi (hinv.occInj i c.idx u hu hA)
                    show (st.queues.set st.idx none).get? i = _
                    rw [get?_set_ne _ _ (fun he => (hi (he.symm.trans hidx)).elim),
                      hmc1ne u hut]
                    exact hcore.bufEq i u hu
                · intro u huN
                  by_cases hut : u = t
                  · subst hut
                    rw [hmc1t]
                    omega
                  · rw [hmc1ne u hut]
                    exact hcore.subGe u huN
                · exact hcore.subLe
                · intro u hu
                  rw [hp1'] at hu
                  cases hu
                · exact (hcore.keysNd).sublist (dictDel_keys_sublist st.srcIx t)
            | cons p ps =>
              have hpst : st.pending = p :: ps := by rw [← hcore.pendEq, hpc]
              have ha1' : c1.active = c.active.set c.idx (some p) := by
                rw [ha1, hfin, hpc]; simp
              have hp1' : c1.pending = ps := by
                rw [hp1, hfin, hpc]; simp
              have hpmem : p ∈ c.pending := by rw [hpc]; exact List.mem_cons_self _ _
              have hpnocc : ∀ i, c.active.get? i ≠ some (some p) :=
                hinv.pendOcc p hpmem
              have hpt : p ≠ t := fun he => hpnocc c.idx (he ▸ hA)
              have hfresh : dictGet (dictDel st.srcIx t) p = none :=
                hfreshDel p hpnocc hpt
              have hput : dictPut (dictDel st.srcIx t) p st.idx =
                  dictDel st.srcIx t ++ [(p, st.idx)] :=
                dictPut_fresh _ _ _ hfresh
              set st1 : QState :=
                { st with merged := st.merged ++ [(t, mergedCnt c.merged t + 1)]
                          srcIx := dictPut (dictDel st.srcIx t) p st.idx
                          pending := ps
                          queues := st.queues.set st.idx (some []) } with hst1
              have hidxA : c.idx < c.active.length := hinv.lenA ▸ hinv.idxLt
              have hA1ne : ∀ i, i ≠ c.idx → c1.active.get? i = c.active.get? i := by
                intro i hi
                rw [ha1']
                exact get?_set_ne _ _ (fun he => hi he.symm)
              have hA1ix : c1.active.get? c.idx = some (some p) := by
                rw [ha1']
                exact get?_set_self _ _ _ hidxA
              have hshape : ∀ i, (c1.active.get? i).map Option.isSome =
                  (st1.queues.get? i).map Option.isSome := by
                apply shape_eq (M := M)
                · rw [ha1']; simp [hinv.lenA]
                · show (st.queues.set st.idx (some [])).length = M
                  rw [List.length_set]; exact hcore.qLen
                · intro i
                  show c1.active.get? i = some none ↔
                    (st.queues.set st.idx (some [])).get? i = some none
                  by_cases hi : i = st.idx
                  · subst hi
                    rw [get?_set_self _ _ _ hidxQ, hidx, hA1ix]
                    constructor
                    · intro h; cases h
                    · intro h; cases h
                  · rw [get?_set_ne _ _ (fun he => hi he.symm),
                      hA1ne i (fun he => hi (he.trans hidx.symm))]
                    exact hcore.noneEq i
                · intro i u hu
                  by_cases hi : i = st.idx
                  · subst hi
                    exact ⟨[], get?_set_self _ _ _ hidxQ⟩
                  · show ∃ b, (st.queues.set st.idx (some [])).get? i = some (some b)
                    rw [get?_set_ne _ _ (fun he => hi he.symm)]
                    rw [hA1ne i (fun he => hi (he.trans hidx.symm))] at hu
                    exact ⟨_, hcore.bufEq i u hu⟩
              have hadvq : advance M (st.queues.set st.idx (some [])) st.idx =
                  .ok c1.idx := by
                have hc := advance_congr hshape M st.idx
                rw [hst1] at hc
                rw [← hc, hidx]
                exact hadv1
              have hred : tryMergeGo M (fuel + 1) st =
                  tryMergeGo M fuel { st1 with idx := c1.idx } := by
                rw [tryMergeGo, hq0, hrest0]
                simp only [hfin, if_true, hpst, hadvq]
              rw [hred]
              have hfuel1 : totalBuf { st1 with idx := c1.idx } < fuel := by
                have hlt := sumBuf_set_lt st.queues st.idx _ _ hq0 (some [])
                  (by simp)
                have h1 : totalBuf { st1 with idx := c1.idx } =
                    ((st.queues.set st.idx (some [])).map
                      (fun q => (q.getD []).length)).sum := rfl
                have h2 : totalBuf st =
                    (st.queues.map (fun q => (q.getD []).length)).sum := rfl
                omega
              refine ih { st1 with idx := c1.idx } sub c1 hfuel1 ?_ hinv1 ?_ herr
              · show canonSt M counts
                  (st.merged ++ [(t, mergedCnt c.merged t + 1)]).length = some c1
                rw [List.length_append]
                exact hcanon1
              · refine ⟨?_, ?_, rfl, ?_, hcore.subLen, ?_, ?_, ?_, ?_, ?_, ?_, ?_, ?_⟩
                · exact hmerged1
                · exact hp1'
                · show (st.queues.set st.idx (some [])).length = M
                  rw [List.length_set]; exact hcore.qLen
                · intro i u hu
                  by_cases hi : i = c.idx
                  · rw [hi, hA1ix] at hu
                    cases hu
                    show dictGet (dictPut (dictDel st.srcIx t) p st.idx) p = some i
                    rw [hput, dictGet_append_self _ _ hfresh, hidx, hi]
                  · rw [hA1ne i hi] at hu
                    have hut : u ≠ t := by
                      intro he; subst he
                      exact hi (hinv.occInj i c.idx u hu hA)
                    have hup : u ≠ p := by
                      intro he; subst he
                      exact hpnocc i hu
                    show dictGet (dictPut (dictDel st.srcIx t) p st.idx) u = some i
                    rw [hput, dictGet_append_ne _ _ hup, dictGet_del_ne _ hut]
                    exact hcore.occDict i u hu
                · intro u i hu
                  show c1.active.get? i = some (some u)
                  replace hu : dictGet (dictPut (dictDel st.srcIx t) p st.idx) u
                      = some i := hu
                  rw [hput] at hu
                  by_cases hup : u = p
                  · subst hup
                    rw [dictGet_append_self _ _ hfresh] at hu
                    cases hu
                    show c1.active.get? st.idx = some (some u)
                    rw [hidx]
                    exact hA1ix
                  · rw [dictGet_append_ne _ _ hup] at hu
                    by_cases hut : u = t
                    · subst hut
                      rw [dictGet_del_self st.srcIx u hcore.keysNd] at hu
                      cases hu
                    · rw [dictGet_del_ne _ hut] at hu
                      have := hcore.dictOcc u i hu
                      by_cases hi : i = c.idx
                      · rw [hi, hA] at this
                        cases this
                        exact absurd rfl hut
                      · rw [hA1ne i hi]
                        exact this
                · intro i
                  show c1.active.get? i = some none ↔
                    (st.queues.set st.idx (some [])).get? i = some none
                  by_cases hi : i = st.idx
                  · subst hi
                    rw [get?_set_self _ _ _ hidxQ, hidx, hA1ix]
                    constructor
                    · intro h; cases h
                    · intro h; cases h
                  · rw [get?_set_ne _ _ (fun he => hi he.symm),
                      hA1ne i (fun he => hi (he.trans hidx.symm))]
                    exact hcore.noneEq i
                · intro i u hu
                  by_cases hi : i = c.idx
                  · rw [hi, hA1ix] at hu
                    cases hu
                    have hcp : mergedCnt c1.merged p = 0 := by
                      rw [hmc1ne p hpt]
                      exact hinv.pendCnt p hpmem
                    have hsp : sub.getD p 0 = 0 := hcore.pendSub p hpmem
                    show (st.queues.set st.idx (some [])).get? i = _
                    rw [hi, ← hidx, get?_set_self _ _ _ hidxQ, hcp, hsp]
                    rfl
                  · rw [hA1ne i hi] at hu
                    have hut : u ≠ t := by
                      intro he; subst he
                      exact hi (hinv.occInj i c.idx u hu hA)
                    show (st.queues.set st.idx (some [])).get? i = _
                    rw [get?_set_ne _ _ (fun he => hi (he.symm.trans hidx)),
                      hmc1ne u hut]
                    exact hcore.bufEq i u hu
                · intro u huN
                  by_cases hut : u = t
                  · subst hut
                    rw [hmc1t]
                    omega
                  · rw [hmc1ne u hut]
                    exact hcore.subGe u huN
                · exact hcore.subLe
                · intro u hu
                  rw [hp1'] at hu
                  exact hcore.pendSub u (by rw [hpc]; exact List.mem_cons_of_mem _ hu)
                · show ((dictPut (dictDel st.srcIx t) p st.idx).map Prod.fst).Nodup
                  rw [hput, List.map_append]
                  have h1 : ((dictDel st.srcIx t).map Prod.fst).Nodup :=
                    (hcore.keysNd).sublist (dictDel_keys_sublist st.srcIx t)
                  have h2 : p ∉ (dictDel st.srcIx t).map Prod.fst := by
                    rw [← dictGet_eq_none_iff]
                    exact hfresh
                  refine List.Nodup.append h1 (List.nodup_singleton _) ?_
                  intro a ha hb
                  simp only [List.map_cons, List.map_nil, List.mem_singleton] at hb
                  subst hb
                  exact h2 ha

theorem getD_set_self (l : List Nat) (s k : Nat) (h : s < l.length) :
    (l.set s k).getD s 0 = k := by
  rw [List.getD_eq_getElem?_getD, List.getElem?_set_eq h]
  rfl

theorem getD_set_ne (l : List Nat) {s u : Nat} (k : Nat) (h : s ≠ u) :
    (l.set s k).getD u 0 = l.getD u 0 := by
  rw [List.getD_eq_getElem?_getD, List.getElem?_set_ne h,
    ← List.getD_eq_getElem?_getD]

/-- One valid submission event preserves the queue-variant invariant. -/
theorem QINV_qStep {M Qcap : Nat} {counts : List Nat}
    (hM : 0 < M) (hMN : M ≤ counts.length) (hcts : ∀ x ∈ counts, 0 < x)
    {r : QRun} (hinv : QINV M counts r) {s : Nat}
    (hv : (qStep M Qcap counts r s).viol = false) :
    QINV M counts (qStep M Qcap counts r s) := by
  obtain ⟨c, hcanon, hcinv, hcore, hstuck, herrok⟩ := hinv
  have hv' : r.viol = false ∧
      (r.subCnt.getD s 0 + 1 ≤ counts.getD s 0) ∧
      ∃ ix, dictGet r.st.srcIx s = some ix ∧ bufLenAt r.st ix < Qcap := by
    rw [qStep] at hv
    simp only [Bool.or_eq_false_iff, Bool.not_eq_false', decide_eq_true_eq] at hv
    rcases hv with ⟨⟨hv1, hv2⟩, hv3⟩
    refine ⟨hv1, by simpa using hv2, ?_⟩
    rcases hg : dictGet r.st.srcIx s with _ | ix
    · rw [hg] at hv3; cases hv3
    · rw [hg] at hv3
      exact ⟨ix, rfl, by simpa using hv3⟩
  obtain ⟨hviol, hkle, ix, hg, hroom⟩ := hv'
  have hAix : c.active.get? ix = some (some s) := hcore.dictOcc s ix hg
  have hsN : s < counts.length := hcinv.occLt ix s hAix
  have hixM : ix < M := by
    by_contra h
    rw [List.get?_eq_getElem?, List.getElem?_eq_none (by rw [hcinv.lenA]; omega)]
      at hAix
    cases hAix
  have hixQ : ix < r.st.queues.length := by rw [hcore.qLen]; exact hixM
  have herr : r.st.err = none := by
    rcases herrok with h | ⟨_, hall⟩
    · exact h
    · have := hall ix hixM
      rw [hcore.bufEq ix s hAix] at this
      cases this
  have hbufeq := hcore.bufEq ix s hAix
  have hms : mergedCnt c.merged s ≤ r.subCnt.getD s 0 := hcore.subGe s hsN
  have hsSub : s < r.subCnt.length := by rw [hcore.subLen]; exact hsN
  unfold QINV
  have hsub : (qStep M Qcap counts r s).subCnt =
      r.subCnt.set s (r.subCnt.getD s 0 + 1) := rfl
  have hst : (qStep M Qcap counts r s).st =
      tryMerge M { r.st with queues := r.st.queues.set ix (some
        (((List.range' (mergedCnt c.merged s + 1)
            (r.subCnt.getD s 0 - mergedCnt c.merged s)).map
          (fun n => (s, n, n == counts.getD s 0))) ++
         [(s, r.subCnt.getD s 0 + 1,
           (r.subCnt.getD s 0 + 1) == counts.getD s 0)])) } := by
    show qAdd M s (r.subCnt.getD s 0 + 1)
      ((r.subCnt.getD s 0 + 1) == counts.getD s 0) r.st = _
    simp only [qAdd, hg, hbufeq]
  rw [hst, hsub]
  have hcore1 : QCorrCore M counts
      { r.st with queues := r.st.queues.set ix (some
        (((List.range' (mergedCnt c.merged s + 1)
            (r.subCnt.getD s 0 - mergedCnt c.merged s)).map
          (fun n => (s, n, n == counts.getD s 0))) ++
         [(s, r.subCnt.getD s 0 + 1,
           (r.subCnt.getD s 0 + 1) == counts.getD s 0)])) }
      (r.subCnt.set s (r.subCnt.getD s 0 + 1)) c := by
    refine ⟨hcore.mergedEq, hcore.pendEq, hcore.idxEq, ?_, ?_, hcore.occDict,
      hcore.dictOcc, ?_, ?_, ?_, ?_, ?_, hcore.keysNd⟩
    · show (r.st.queues.set ix _).length = M
      rw [List.length_set]; exact hcore.qLen
    · rw [List.length_set]; exact hcore.subLen
    · intro i
      show c.active.get? i = some none ↔ (r.st.queues.set ix _).get? i = some none
      by_cases hi : i = ix
      · subst hi
        rw [get?_set_self _ _ _ hixQ, hAix]
        constructor
        · intro h; cases h
        · intro h; cases h
      · rw [get?_set_ne _ _ (fun he => hi he.symm)]
        exact hcore.noneEq i
    · intro i u hu
      show (r.st.queues.set ix _).get? i = _
      by_cases hi : i = ix
      · subst hi
        rw [hAix] at hu
        cases hu
        rw [get?_set_self _ _ _ hixQ,
          getD_set_self _ _ _ hsSub]
        have harith : r.subCnt.getD s 0 + 1 - mergedCnt c.merged s =
            (r.subCnt.getD s 0 - mergedCnt c.merged s) + 1 := by omega
        rw [harith, List.range'_1_concat, List.map_append]
        have hend : mergedCnt c.merged s + 1 +
            (r.subCnt.getD s 0 - mergedCnt c.merged s) =
            r.subCnt.getD s 0 + 1 := by omega
        rw [hend]
        rfl
      · have hus : u ≠ s := by
          intro he; subst he
          have := hcore.occDict i u hu
          rw [hg] at this
          cases this
          exact hi rfl
        rw [get?_set_ne _ _ (fun he => hi he.symm),
          getD_set_ne _ _ (fun he => hus he.symm)]
        exact hcore.bufEq i u hu
    · intro u huN
      by_cases hus : u = s
      · subst hus
        rw [getD_set_self _ _ _ hsSub]
        omega
      · rw [getD_set_ne _ _ (fun he => hus he.symm)]
        exact hcore.subGe u huN
    · intro u huN
      by_cases hus : u = s
      · subst hus
        rw [getD_set_self _ _ _ hsSub]
        exact hkle
      · rw [getD_set_ne _ _ (fun he => hus he.symm)]
        exact hcore.subLe u huN
    · intro u hu
      have hus : u ≠ s := by
        intro he; subst he
        exact hcinv.pendOcc u hu ix hAix
      rw [getD_set_ne _ _ (fun he => hus he.symm)]
      exact hcore.pendSub u hu
  exact tryMergeGo_sim hM hMN hcts _ _ _ c (Nat.lt_succ_self _)
    hcanon hcinv hcore1 herr

theorem enum_range_map (n : Nat) :
    (List.range n).enum.map (fun p => (p.2, p.1)) =
    (List.range n).map (fun i => (i, i)) := by
  apply List.ext_getElem?
  intro i
  rw [List.getElem?_map, List.getElem?_map, List.getElem?_enum]
  by_cases h : i < n
  · rw [List.getElem?_range h]
    rfl
  · rw [List.getElem?_eq_none (by simpa using h)]
    rfl

theorem dictGet_range_map (M s : Nat) :
    dictGet ((List.range M).map (fun i => (i, i))) s =
    if s < M then some s else none := by
  induction M with
  | zero => simp [dictGet_nil]
  | succ M ih =>
    rw [List.range_succ, List.map_append, List.map_singleton]
    by_cases hsM : s = M
    · subst hsM
      rw [dictGet_append_self]
      · simp
      · rw [ih]; simp
    · rw [dictGet_append_ne _ _ hsM, ih]
      by_cases h : s < M
      · rw [if_pos h, if_pos (by omega)]
      · rw [if_neg h, if_neg (by omega)]

/-- The initial state of a queue-variant run satisfies the invariant. -/
theorem QINV_init {M : Nat} {counts : List Nat}
    (hM : 0 < M) (hMN : M ≤ counts.length) (hcts : ∀ x ∈ counts, 0 < x) :
    QINV M counts
      { st := qInit M (List.range counts.length)
        subCnt := List.replicate counts.length 0
        viol := false } := by
  have htake : (List.range counts.length).take M = List.range M := by
    rw [List.take_range, Nat.min_eq_left hMN]
  have hix : (qInit M (List.range counts.length)).srcIx =
      (List.range M).map (fun i => (i, i)) := by
    show ((List.range counts.length).take M).enum.map (fun p => (p.2, p.1)) = _
    rw [htake, enum_range_map]
  have hqs : (qInit M (List.range counts.length)).queues =
      List.replicate M (some []) := by
    show List.replicate ((List.range counts.length).take M).length (some []) = _
    rw [htake, List.length_range]
  have hactive : ∀ i, (initC M (List.range counts.length)).active.get? i =
      if i < M then some (some i) else none := by
    intro i
    show (((List.range counts.length).take M).map some).get? i = _
    rw [htake, List.get?_eq_getElem?, List.getElem?_map]
    by_cases h : i < M
    · rw [List.getElem?_range h]; simp [h]
    · rw [List.getElem?_eq_none (by simpa using h)]; simp [h]
  have hrepl : ∀ i, i < M →
      (List.replicate M (some [] : Option (List BufEntry))).get? i = some (some []) := by
    intro i hi
    rw [List.get?_eq_getElem?, List.getElem?_replicate]
    simp [hi]
  have hsubD : ∀ s, (List.replicate counts.length (0 : Nat)).getD s 0 = 0 := by
    intro s
    rw [List.getD_eq_getElem?_getD, List.getElem?_replicate]
    by_cases h : s < counts.length <;> simp [h]
  refine ⟨initC M (List.range counts.length), rfl, CINV_init hM hMN hcts,
    ?_, ?_, Or.inl rfl⟩
  · refine ⟨rfl, rfl, rfl, ?_, ?_, ?_, ?_, ?_, ?_, ?_, ?_, ?_, ?_⟩
    · rw [hqs]; exact List.length_replicate M _
    · exact List.length_replicate _ _
    · intro i s h
      rw [hactive i] at h
      by_cases hi : i < M
      · rw [if_pos hi] at h; cases h
        rw [hix, dictGet_range_map, if_pos hi]
      · rw [if_neg hi] at h; cases h
    · intro s i h
      rw [hix, dictGet_range_map] at h
      by_cases hs : s < M
      · rw [if_pos hs] at h; cases h
        rw [hactive s, if_pos hs]
      · rw [if_neg hs] at h; cases h
    · intro i
      rw [hactive i, hqs]
      constructor
      · intro h
        by_cases hi : i < M
        · rw [if_pos hi] at h; cases h
        · rw [if_neg hi] at h; cases h
      · intro h
        by_cases hi : i < M
        · rw [hrepl i hi] at h; cases h
        · rw [List.get?_eq_getElem?, List.getElem?_eq_none (by simp; omega)] at h
          cases h
    · intro i s h
      rw [hactive i] at h
      by_cases hi : i < M
      · rw [if_pos hi] at h; cases h
        rw [hqs, hrepl i hi, hsubD]
        rfl
      · rw [if_neg hi] at h; cases h
    · intro s _
      rw [hsubD]
      exact Nat.le_refl 0
    · intro s hs
      rw [hsubD]
      exact Nat.zero_le _
    · intro s _
      exact hsubD s
    · rw [hix]
      have hfst : ((List.range M).map (fun i => (i, i))).map Prod.fst
          = List.range M := by
        rw [List.map_map]
        have hid : (Prod.fst ∘ fun i : Nat => (i, i)) = fun i => i := by
          funext x; rfl
        rw [hid, List.map_id']
      rw [hfst]
      exact List.nodup_range M
  · refine Or.inl ?_
    show (qInit M (List.range counts.length)).queues.get?
      (qInit M (List.range counts.length)).idx = some (some [])
    rw [hqs]
    exact hrepl 0 hM

/-- A schedule violation is permanent. -/
theorem qStep_viol_mono {M Qcap : Nat} {counts : List Nat} {r : QRun} {s : Nat}
    (h : r.viol = true) : (qStep M Qcap counts r s).viol = true := by
  rw [qStep]
  simp [h]

theorem foldl_viol_false {M Qcap : Nat} {counts : List Nat} :
    ∀ (l : List Nat) (r : QRun),
    (l.foldl (qStep M Qcap counts) r).viol = false → r.viol = false := by
  intro l
  induction l with
  | nil => intro r h; exact h
  | cons e t ih =>
    intro r h
    have h1 := ih (qStep M Qcap counts r e) h
    by_contra hc
    rw [qStep_viol_mono (by revert hc; cases r.viol <;> simp)] at h1
    cases h1

theorem QINV_foldl {M Qcap : Nat} {counts : List Nat}
    (hM : 0 < M) (hMN : M ≤ counts.length) (hcts : ∀ x ∈ counts, 0 < x) :
    ∀ (l : List Nat) (r : QRun), QINV M counts r →
    (l.foldl (qStep M Qcap counts) r).viol = false →
    QINV M counts (l.foldl (qStep M Qcap counts) r) := by
  intro l
  induction l with
  | nil => intro r h _; exact h
  | cons e t ih =>
    intro r h hviol
    have h0 : (qStep M Qcap counts r e).viol = false :=
      foldl_viol_false t _ hviol
    exact ih _ (QINV_qStep hM hMN hcts h h0) hviol

/-- Determinism of the queue variant: every valid complete run produces the
canonical output, independently of the schedule and of the buffer
capacity. -/
theorem runQ_merged {M Qcap : Nat} {counts : List Nat}
    (hM : 0 < M) (hMN : M ≤ counts.length) (hcts : ∀ x ∈ counts, 0 < x)
    (sched : List Nat)
    (hviol : (runQ M Qcap counts sched).viol = false)
    (hcomp : (runQ M Qcap counts sched).subCnt = counts) :
    (runQ M Qcap counts sched).st.merged = canonOut M counts := by
  have hinv : QINV M counts (runQ M Qcap counts sched) :=
    QINV_foldl hM hMN hcts sched _ (QINV_init hM hMN hcts) hviol
  obtain ⟨c, hcanon, hcinv, hcore, hstuck, _⟩ := hinv
  set r := runQ M Qcap counts sched
  have hsubD : ∀ s, s < counts.length → r.subCnt.getD s 0 = counts.getD s 0 := by
    intro s _
    rw [hcomp]
  -- at completion every slot is permanently empty
  have hallnone : ∀ i, i < M → r.st.queues.get? i = some none := by
    rcases hstuck with hleft | hall
    · exfalso
      rcases hAix : c.active.get? c.idx with _ | o
      · rw [List.get?_eq_getElem?,
          List.getElem?_eq_getElem (by rw [hcinv.lenA]; exact hcinv.idxLt)] at hAix
        cases hAix
      · cases o with
        | some t =>
          have hbuf := hcore.bufEq c.idx t hAix
          rw [hcore.idxEq] at hbuf
          rw [hleft] at hbuf
          have htN : t < counts.length := hcinv.occLt _ _ hAix
          have hocc := hcinv.occCnt _ _ hAix
          have hge := hcore.subGe t htN
          have hsd := hsubD t htN
          have hmap : ((List.range' (mergedCnt c.merged t + 1)
              (r.subCnt.getD t 0 - mergedCnt c.merged t)).map
              (fun k => (t, k, k == counts.getD t 0))) = [] := by
            injection hbuf with h1
            injection h1 with h2
            exact h2.symm
          rw [List.map_eq_nil_iff, List.range'_eq_nil] at hmap
          omega
        | none =>
          have := (hcore.noneEq c.idx).1 hAix
          rw [hcore.idxEq] at this
          rw [hleft] at this
          cases this
    · exact hall
  have hnocc : ∀ i t, c.active.get? i ≠ some (some t) := by
    intro i t hit
    have hiM : i < M := by
      by_contra h
      rw [List.get?_eq_getElem?, List.getElem?_eq_none (by rw [hcinv.lenA]; omega)]
        at hit
      cases hit
    have := hcore.bufEq i t hit
    rw [hallnone i hiM] at this
    cases this
  have hfin : ∀ s, s < counts.length → mergedCnt c.merged s = counts.getD s 0 := by
    intro s hs
    have hsp : s ∉ c.pending := by
      intro hmem
      have h0 := hcore.pendSub s hmem
      have h1 := hsubD s hs
      have := getD_pos hcts hs
      omega
    exact hcinv.finCnt s hs (fun i => hnocc i s) hsp
  have hlen : c.merged.length = totalBlocks counts := by
    rw [length_eq_sum_mergedCnt counts.length c.merged hcinv.memLt,
      Finset.sum_congr rfl (fun s hsm => hfin s (Finset.mem_range.1 hsm)),
      totalBlocks, sum_eq_sum_getD]
  rw [← hcore.mergedEq, canonOut]
  rw [← hcore.mergedEq] at hcanon
  rw [hlen] at hcanon
  rw [hcanon]

/-!
### The simulation invariant of the strict variant
-/

theorem findIdx?_some {α : Type} {p : α → Bool} {l : List α} {i : Nat}
    (h : l.findIdx? p = some i) : ∃ a, l.get? i = some a ∧ p a = true := by
  obtain ⟨hlen, hp, _⟩ := List.findIdx?_eq_some_iff_getElem.1 h
  refine ⟨l[i], ?_, hp⟩
  rw [List.get?_eq_getElem?, List.getElem?_eq_getElem hlen]

/-- Simulation invariant of a strict-variant run: the control state is a
canonical state, and every in-flight call carries the occupant's next block
for the slot recorded at call entry. -/
def SINV (M : Nat) (counts : List Nat) (r : SRun) : Prop :=
  canonSt M counts r.st.ctrl.merged.length = some r.st.ctrl ∧
  CINV M counts r.st.ctrl ∧
  r.subCnt.length = counts.length ∧
  r.st.err = none ∧
  (∀ e ∈ r.st.inflight,
    r.st.ctrl.active.get? e.2.2.2 = some (some e.1) ∧
    e.2.1 = mergedCnt r.st.ctrl.merged e.1 + 1 ∧
    e.2.2.1 = (e.2.1 == counts.getD e.1 0) ∧
    r.subCnt.getD e.1 0 = e.2.1) ∧
  (r.st.inflight.map (fun e => e.1)).Nodup ∧
  (∀ s, s < counts.length → (∀ e ∈ r.st.inflight, e.1 ≠ s) →
    r.subCnt.getD s 0 = mergedCnt r.st.ctrl.merged s)

theorem SINV_init {M : Nat} {counts : List Nat}
    (hM : 0 < M) (hMN : M ≤ counts.length) (hcts : ∀ x ∈ counts, 0 < x) :
    SINV M counts
      { st := sInit M (List.range counts.length)
        subCnt := List.replicate counts.length 0
        viol := false } := by
  have hsubD : ∀ s, (List.replicate counts.length (0 : Nat)).getD s 0 = 0 := by
    intro s
    rw [List.getD_eq_getElem?_getD, List.getElem?_replicate]
    by_cases h : s < counts.length <;> simp [h]
  refine ⟨rfl, CINV_init hM hMN hcts, List.length_replicate _ _, rfl, ?_, ?_, ?_⟩
  · intro e he; cases he
  · exact List.nodup_nil
  · intro s _ _
    rw [hsubD]
    rfl

/-- One valid event preserves the strict-variant invariant. -/
theorem SINV_sStep {M : Nat} {counts : List Nat}
    (hM : 0 < M) (hMN : M ≤ counts.length) (hcts : ∀ x ∈ counts, 0 < x)
    {r : SRun} (hinv : SINV M counts r) {e : SEv}
    (hv : (sStep M counts r e).viol = false)
    (he : (sStep M counts r e).st.err = none) :
    SINV M counts (sStep M counts r e) := by
  obtain ⟨hcanon, hcinv, hsubLen, herr, hflight, hnd, hnof⟩ := hinv
  cases e with
  | invoke s =>
    -- decompose the validity checks
    have hv' : r.viol = false ∧ r.subCnt.getD s 0 + 1 ≤ counts.getD s 0 ∧
        (r.st.inflight.any (fun t => t.1 == s)) = false := by
      rw [sStep] at hv
      simp only [Bool.or_eq_false_iff, Bool.not_eq_false', decide_eq_true_eq] at hv
      exact ⟨hv.1.1, by simpa using hv.1.2, hv.2⟩
    obtain ⟨hviol, hkle, hnos⟩ := hv'
    have hnoin : ∀ t ∈ r.st.inflight, t.1 ≠ s := by
      intro t ht hts
      rw [List.any_eq_false] at hnos
      exact absurd (by simpa using hts) (by simpa using hnos t ht)
    -- the assertion passed, so the source occupies a slot
    rcases hfi : r.st.ctrl.active.findIdx? (fun o => o == some s) with _ | ix
    · exfalso
      rw [sStep] at he
      simp only [sInvoke, hfi] at he
      rw [herr] at he
      cases he
    · obtain ⟨a, hget, hpa⟩ := findIdx?_some hfi
      have hgets : r.st.ctrl.active.get? ix = some (some s) := by
        rw [hget]
        have : a = some s := by simpa using hpa
        rw [this]
      have hsN : s < counts.length := hcinv.occLt ix s hgets
      have hsSub : s < r.subCnt.length := by rw [hsubLen]; exact hsN
      have hsub0 : r.subCnt.getD s 0 = mergedCnt r.st.ctrl.merged s :=
        hnof s hsN hnoin
      have hstep : (sStep M counts r (SEv.invoke s)).st =
          { r.st with inflight := r.st.inflight ++
              [(s, r.subCnt.getD s 0 + 1,
                (r.subCnt.getD s 0 + 1) == counts.getD s 0, ix)] } := by
        show sInvoke s (r.subCnt.getD s 0 + 1) _ r.st = _
        rw [sInvoke, hfi]
      have hsub : (sStep M counts r (SEv.invoke s)).subCnt =
          r.subCnt.set s (r.subCnt.getD s 0 + 1) := rfl
      rw [SINV, hstep, hsub]
      refine ⟨hcanon, hcinv, by rw [List.length_set]; exact hsubLen, herr,
        ?_, ?_, ?_⟩
      · intro t ht
        rcases List.mem_append.1 ht with h | h
        · obtain ⟨h1, h2, h3, h4⟩ := hflight t h
          refine ⟨h1, h2, h3, ?_⟩
          rw [getD_set_ne _ _ (fun hse => (hnoin t h) hse.symm)]
          exact h4
        · rcases List.mem_singleton.1 h with rfl
          refine ⟨hgets, by rw [hsub0], rfl, ?_⟩
          rw [getD_set_self _ _ _ hsSub]
      · rw [List.map_append]
        refine List.Nodup.append hnd (List.nodup_singleton _) ?_
        intro a ha hb
        simp only [List.map_cons, List.map_nil, List.mem_singleton] at hb
        subst hb
        obtain ⟨t, htmem, hteq⟩ := List.mem_map.1 ha
        exact hnoin t htmem hteq
      · intro u huN hu
        have hus : u ≠ s := by
          intro hx; subst hx
          exact hu (u, r.subCnt.getD u 0 + 1,
            (r.subCnt.getD u 0 + 1) == counts.getD u 0, ix)
            (List.mem_append.2 (Or.inr (List.mem_singleton.2 rfl))) rfl
        rw [getD_set_ne _ _ (fun hse => hus hse.symm)]
        exact hnof u huN (fun t ht => hu t (List.mem_append.2 (Or.inl ht)))
  | complete s =>
    rcases hfind : r.st.inflight.find? (fun t => t.1 == s) with _ | et
    · exfalso
      rw [sStep, hfind] at hv
      cases hv
    · obtain ⟨s', k, fin, ix⟩ := et
      have hets : s' = s := by
        have := List.find?_some hfind
        simpa using this
      subst hets
      have hmem : (s', k, fin, ix) ∈ r.st.inflight :=
        List.mem_of_find?_eq_some hfind
      obtain ⟨hocc0, hk0, hfin0, hsubk0⟩ := hflight _ hmem
      have hocc : r.st.ctrl.active.get? ix = some (some s') := hocc0
      have hk : k = mergedCnt r.st.ctrl.merged s' + 1 := hk0
      have hfin : fin = (k == counts.getD s' 0) := hfin0
      have hsubk : r.subCnt.getD s' 0 = k := hsubk0
      by_cases hix : ix = r.st.ctrl.idx
      · subst hix
        obtain ⟨c', hmerge, hinv', hm', ha', hp', hadv'⟩ :=
          CINV_mergeAt hcts hcinv hocc
        have hmerge2 : mergeAt M r.st.ctrl s' k fin = (c', none) := by
          rw [hfin, hk]
          exact hmerge
        have hforced : forcedStep M counts r.st.ctrl = some c' := by
          rw [forcedStep, hocc]
          simp only [hmerge]
        have hstep : (sStep M counts r (SEv.complete s')).st =
            { ctrl := c'
              inflight := r.st.inflight.eraseP (fun t => t.1 == s')
              err := r.st.err <|> none } := by
          rw [sStep]
          simp [hfind, hmerge2]
        have herr' : (r.st.err <|> (none : Option MergeErr)) = none := by
          rw [herr]
          rfl
        have hsub : (sStep M counts r (SEv.complete s')).subCnt = r.subCnt := by
          rw [sStep]
          simp [hfind, hmerge2]
        have hm'' : c'.merged = r.st.ctrl.merged ++
            [(s', mergedCnt r.st.ctrl.merged s' + 1)] := hm'
        have hmcne : ∀ u, u ≠ s' → mergedCnt c'.merged u =
            mergedCnt r.st.ctrl.merged u := by
          intro u hu
          rw [hm'', mergedCnt_append]
          simp [Ne.symm hu]
        have hmcs : mergedCnt c'.merged s' =
            mergedCnt r.st.ctrl.merged s' + 1 := by
          rw [hm'', mergedCnt_append]
          simp
        have hsurv : ∀ t, t ∈ r.st.inflight → (t.1 == s') = false →
            t ∈ r.st.inflight.eraseP (fun t => t.1 == s') := by
          intro t
          generalize r.st.inflight = l
          induction l with
          | nil => intro h; cases h
          | cons x xs ih =>
            intro hmem hp
            rw [List.eraseP_cons]
            rcases hx : (x.1 == s') with _ | _
            · simp only [hx, cond_false]
              rcases List.mem_cons.1 hmem with h | h
              · subst h; exact List.mem_cons_self _ _
              · exact List.mem_cons_of_mem _ (ih h hp)
            · simp only [hx, cond_true]
              rcases List.mem_cons.1 hmem with h | h
              · subst h; rw [hx] at hp; cases hp
              · exact h
        have hgone : ∀ t, t ∈ r.st.inflight.eraseP (fun t => t.1 == s') →
            t.1 ≠ s' := by
          have hnd' := hnd
          generalize hgen : r.st.inflight = l at hnd' ⊢
          clear hgen
          induction l with
          | nil => intro t h; cases h
          | cons x xs ih =>
            intro t ht
            rw [List.eraseP_cons] at ht
            rw [List.map_cons, List.nodup_cons] at hnd'
            rcases hx : (x.1 == s') with _ | _
            · rw [hx, cond_false] at ht
              rcases List.mem_cons.1 ht with h | h
              · subst h
                simpa using hx
              · exact ih hnd'.2 t h
            · rw [hx, cond_true] at ht
              intro hts
              have hxs : x.1 = s' := by simpa using hx
              exact hnd'.1 (hxs ▸ hts ▸ List.mem_map.2 ⟨t, ht, rfl⟩)
        rw [SINV, hstep, hsub]
        refine ⟨?_, hinv', hsubLen, herr', ?_, ?_, ?_⟩
        · show canonSt M counts c'.merged.length = some c'
          rw [hm'', List.length_append]
          show canonSt M counts (r.st.ctrl.merged.length + 1) = some c'
          have : canonSt M counts (r.st.ctrl.merged.length + 1) =
              (canonSt M counts r.st.ctrl.merged.length).bind
                (forcedStep M counts) := rfl
          rw [this, hcanon]
          simp [hforced]
        · intro t ht
          have htl : t ∈ r.st.inflight :=
            (List.eraseP_sublist _).subset ht
          have hts : t.1 ≠ s' := hgone t ht
          obtain ⟨h1, h2, h3, h4⟩ := hflight t htl
          refine ⟨?_, by rw [hmcne t.1 hts]; exact h2, h3, h4⟩
          show c'.active.get? t.2.2.2 = some (some t.1)
          rcases (Bool.eq_false_or_eq_true
              ((mergedCnt r.st.ctrl.merged s' + 1) == counts.getD s' 0)).symm
            with hb | hb
          · have hAeq : c'.active = r.st.ctrl.active := by
              rw [ha', hb]; simp
            rw [hAeq]
            exact h1
          · have hAset : c'.active =
                r.st.ctrl.active.set r.st.ctrl.idx r.st.ctrl.pending.head? := by
              rw [ha', hb]; simp
            have hne : t.2.2.2 ≠ r.st.ctrl.idx := by
              intro hteq
              rw [hteq, hocc] at h1
              cases h1
              exact hts rfl
            rw [hAset, get?_set_ne _ _ (fun he2 => hne he2.symm)]
            exact h1
        · exact hnd.sublist (List.Sublist.map _ (List.eraseP_sublist _))
        · intro u huN hu
          by_cases hus : u = s'
          · subst hus
            rw [hsubk, hk, hmcs]
          · rw [hmcne u hus]
            refine hnof u huN ?_
            intro t ht htu
            refine hu t (hsurv t ht ?_) htu
            rw [htu]
            simp [hus]
      · exfalso
        rw [sStep] at hv
        simp only [hfind, if_neg hix] at hv
        cases hv

theorem sStep_viol_mono {M : Nat} {counts : List Nat} {r : SRun} {e : SEv}
    (h : r.viol = true) : (sStep M counts r e).viol = true := by
  cases e with
  | invoke s => rw [sStep]; simp [h]
  | complete s =>
    rcases hfind : r.st.inflight.find? (fun t => t.1 == s) with _ | et
    · simp only [sStep, hfind]
    · obtain ⟨s', k, fin, ix⟩ := et
      simp only [sStep, hfind]
      by_cases hix : ix = r.st.ctrl.idx
      · rw [if_pos hix]
        rcases hm : mergeAt M r.st.ctrl s k fin with ⟨c', e?⟩
        exact h
      · rw [if_neg hix]

theorem sStep_err_none {M : Nat} {counts : List Nat} {r : SRun} {e : SEv}
    (h : (sStep M counts r e).st.err = none) : r.st.err = none := by
  rcases he : r.st.err with _ | x
  · rfl
  · exfalso
    cases e with
    | invoke s =>
      rw [sStep] at h
      revert h
      show (sInvoke s _ _ r.st).err = none → False
      rw [sInvoke]
      rcases hfi : r.st.ctrl.active.findIdx? (fun o => o == some s) with _ | ix
      · rw [he]
        intro h; cases h
      · rw [he]
        intro h; cases h
    | complete s =>
      revert h
      rcases hfind : r.st.inflight.find? (fun t => t.1 == s) with _ | et
      · simp only [sStep, hfind, he]; intro h; cases h
      · obtain ⟨s', k, fin, ix⟩ := et
        simp only [sStep, hfind]
        by_cases hix : ix = r.st.ctrl.idx
        · rw [if_pos hix]
          rcases hm : mergeAt M r.st.ctrl s k fin with ⟨c', e?⟩
          show (r.st.err <|> e?) = none → False
          rw [he]
          intro h; cases h
        · rw [if_neg hix]
          rw [he]
          intro h; cases h

theorem foldS_viol_false {M : Nat} {counts : List Nat} :
    ∀ (l : List SEv) (r : SRun),
    (l.foldl (sStep M counts) r).viol = false → r.viol = false := by
  intro l
  induction l with
  | nil => intro r h; exact h
  | cons e t ih =>
    intro r h
    have h1 := ih (sStep M counts r e) h
    by_contra hc
    rw [sStep_viol_mono (by revert hc; cases r.viol <;> simp)] at h1
    cases h1

theorem foldS_err_none {M : Nat} {counts : List Nat} :
    ∀ (l : List SEv) (r : SRun),
    (l.foldl (sStep M counts) r).st.err = none → r.st.err = none := by
  intro l
  induction l with
  | nil => intro r h; exact h
  | cons e t ih =>
    intro r h
    exact sStep_err_none (ih (sStep M counts r e) h)

theorem SINV_foldl {M : Nat} {counts : List Nat}
    (hM : 0 < M) (hMN : M ≤ counts.length) (hcts : ∀ x ∈ counts, 0 < x) :
    ∀ (l : List SEv) (r : SRun), SINV M counts r →
    (l.foldl (sStep M counts) r).viol = false →
    (l.foldl (sStep M counts) r).st.err = none →
    SINV M counts (l.foldl (sStep M counts) r) := by
  intro l
  induction l with
  | nil => intro r h _ _; exact h
  | cons e t ih =>
    intro r h hviol herr
    have h0v : (sStep M counts r e).viol = false := foldS_viol_false t _ hviol
    have h0e : (sStep M counts r e).st.err = none := foldS_err_none t _ herr
    exact ih _ (SINV_sStep hM hMN hcts h h0v h0e) hviol herr

/-- Determinism of the strict variant: every valid complete run produces
the canonical output, independently of the interleaving of the calls. -/
theorem runS_merged {M : Nat} {counts : List Nat}
    (hM : 0 < M) (hMN : M ≤ counts.length) (hcts : ∀ x ∈ counts, 0 < x)
    (sched : List SEv)
    (hviol : (runS M counts sched).viol = false)
    (herr : (runS M counts sched).st.err = none)
    (hcomp : (runS M counts sched).subCnt = counts)
    (hinf : (runS M counts sched).st.inflight = []) :
    (runS M counts sched).st.ctrl.merged = canonOut M counts := by
  have hinv : SINV M counts (runS M counts sched) :=
    SINV_foldl hM hMN hcts sched _ (SINV_init hM hMN hcts) hviol herr
  obtain ⟨hcanon, hcinv, _, _, _, _, hnof⟩ := hinv
  set r := runS M counts sched
  have hfin : ∀ s, s < counts.length →
      mergedCnt r.st.ctrl.merged s = counts.getD s 0 := by
    intro s hs
    have := hnof s hs (by rw [hinf]; intro e he; cases he)
    rw [hcomp] at this
    exact this.symm
  have hlen : r.st.ctrl.merged.length = totalBlocks counts := by
    rw [length_eq_sum_mergedCnt counts.length _ hcinv.memLt,
      Finset.sum_congr rfl (fun s hsm => hfin s (Finset.mem_range.1 hsm)),
      totalBlocks, sum_eq_sum_getD]
  rw [canonOut]
  rw [hlen] at hcanon
  rw [hcanon]

/-!
### Projections of the shared merge section

`mergeAt` always appends exactly one block to the output, and touches the
slot table and the pending queue only on a final block, whatever the
advance loop does afterwards.
-/

theorem mergeAt_merged (M : Nat) (c : CState) (s k : Nat) (fin : Bool) :
    (mergeAt M c s k fin).1.merged = c.merged ++ [(s, k)] := by
  rw [mergeAt]
  split <;> rfl

theorem mergeAt_active (M : Nat) (c : CState) (s k : Nat) (fin : Bool) :
    (mergeAt M c s k fin).1.active =
      if fin then c.active.set c.idx c.pending.head? else c.active := by
  rw [mergeAt]
  split <;> rfl

theorem mergeAt_pending (M : Nat) (c : CState) (s k : Nat) (fin : Bool) :
    (mergeAt M c s k fin).1.pending =
      if fin then c.pending.tail else c.pending := by
  rw [mergeAt]
  split <;> rfl

/-- Inversion of a successful forced step: it is the merge section applied
to the occupant of the current slot, with the block index following the
occupant's merged count. -/
theorem forcedStep_inv {M : Nat} {counts : List Nat} {c c' : CState}
    (h : forcedStep M counts c = some c') :
    ∃ s, c.active.get? c.idx = some (some s) ∧
      (mergeAt M c s (mergedCnt c.merged s + 1)
        ((mergedCnt c.merged s + 1) == counts.getD s 0)).1 = c' := by
  rcases hA : c.active.get? c.idx with _ | o
  · rw [forcedStep] at h
    rw [hA] at h
    exact Option.noConfusion (show (none : Option CState) = some c' from h)
  · rcases o with _ | s
    · rw [forcedStep] at h
      rw [hA] at h
      exact Option.noConfusion (show (none : Option CState) = some c' from h)
    · refine ⟨s, rfl, ?_⟩
      rw [forcedStep] at h
      rw [hA] at h
      replace h : (match mergeAt M c s (mergedCnt c.merged s + 1)
          ((mergedCnt c.merged s + 1) == counts.getD s 0) with
        | (c₂, none) => some c₂
        | (_, some _) => none) = some c' := h
      rcases hm : mergeAt M c s (mergedCnt c.merged s + 1)
        ((mergedCnt c.merged s + 1) == counts.getD s 0) with ⟨c₁, e?⟩
      rw [hm] at h
      cases e? with
      | none => exact Option.some.inj h
      | some e => exact Option.noConfusion (show (none : Option CState) = some c' from h)

/-!
### Monotone growth of the merged output

Neither variant ever removes or reorders already merged blocks: every step
extends the output on the right.
-/

theorem tryMergeGo_mono (M : Nat) :
    ∀ (fuel : Nat) (st : QState),
    ∃ tl, (tryMergeGo M fuel st).merged = st.merged ++ tl := by
  intro fuel
  induction fuel with
  | zero => intro st; exact ⟨[], by simp [tryMergeGo]⟩
  | succ fuel ih =>
    intro st
    rw [tryMergeGo]
    rcases hq : st.queues.get? st.idx with _ | q
    · exact ⟨[], by simp⟩
    · rcases q with _ | buf
      · exact ⟨[], by simp⟩
      · rcases buf with _ | ⟨⟨s, k, fin⟩, rest⟩
        · exact ⟨[], by simp⟩
        · cases fin with
          | false =>
            simp only [Bool.false_eq_true, if_false]
            rcases hadv : advance M (st.queues.set st.idx (some rest)) st.idx
              with ⟨e, j⟩ | j
            · exact ⟨[(s, k)], rfl⟩
            · obtain ⟨tl, h⟩ := ih { st with
                merged := st.merged ++ [(s, k)]
                queues := st.queues.set st.idx (some rest)
                idx := j }
              refine ⟨(s, k) :: tl, ?_⟩
              show (tryMergeGo M fuel { st with
                merged := st.merged ++ [(s, k)]
                queues := st.queues.set st.idx (some rest)
                idx := j }).merged = _
              rw [h]
              simp
          | true =>
            simp only [if_true]
            rcases hp : st.pending with _ | ⟨p, ps⟩
            · rcases hadv : advance M (st.queues.set st.idx none) st.idx
                with ⟨e, j⟩ | j
              · exact ⟨[(s, k)], rfl⟩
              · obtain ⟨tl, h⟩ := ih
                  { srcIx := dictDel st.srcIx s
                    pending := []
                    queues := st.queues.set st.idx none
                    idx := j
                    merged := st.merged ++ [(s, k)]
                    err := st.err }
                refine ⟨(s, k) :: tl, ?_⟩
                show (tryMergeGo M fuel
                  { srcIx := dictDel st.srcIx s
                    pending := []
                    queues := st.queues.set st.idx none
                    idx := j
                    merged := st.merged ++ [(s, k)]
                    err := st.err }).merged = _
                rw [h]
                simp
            · rcases hadv : advance M (st.queues.set st.idx (some rest)) st.idx
                with ⟨e, j⟩ | j
              · exact ⟨[(s, k)], rfl⟩
              · obtain ⟨tl, h⟩ := ih { st with
                  merged := st.merged ++ [(s, k)]
                  srcIx := dictPut (dictDel st.srcIx s) p st.idx
                  pending := ps
                  queues := st.queues.set st.idx (some rest)
                  idx := j }
                refine ⟨(s, k) :: tl, ?_⟩
                show (tryMergeGo M fuel { st with
                  merged := st.merged ++ [(s, k)]
                  srcIx := dictPut (dictDel st.srcIx s) p st.idx
                  pending := ps
                  queues := st.queues.set st.idx (some rest)
                  idx := j }).merged = _
                rw [h]
                simp

theorem qAdd_mono (M s k : Nat) (fin : Bool) (st : QState) :
    ∃ tl, (qAdd M s k fin st).merged = st.merged ++ tl := by
  rw [qAdd]
  rcases hg : dictGet st.srcIx s with _ | ix
  · exact ⟨[], by simp⟩
  · rcases hq : st.queues[ix]? with _ | q
    · exact ⟨[], by simp [hq]⟩
    · rcases q with _ | buf
      · exact ⟨[], by simp [hq]⟩
      · obtain ⟨tl, h⟩ := tryMergeGo_mono M
          (totalBuf { st with
            queues := st.queues.set ix (some (buf ++ [(s, k, fin)])) } + 1)
          { st with queues := st.queues.set ix (some (buf ++ [(s, k, fin)])) }
        refine ⟨tl, ?_⟩
        simp only [List.get?_eq_getElem?, hq]
        exact h

theorem qStep_mono (M Qcap : Nat) (counts : List Nat) (r : QRun) (s : Nat) :
    ∃ tl, (qStep M Qcap counts r s).st.merged = r.st.merged ++ tl :=
  qAdd_mono M s _ _ r.st

theorem foldQ_mono (M Qcap : Nat) (counts : List Nat) :
    ∀ (l : List Nat) (r : QRun),
    ∃ tl, (l.foldl (qStep M Qcap counts) r).st.merged = r.st.merged ++ tl := by
  intro l
  induction l with
  | nil => intro r; exact ⟨[], by simp⟩
  | cons e t ih =>
    intro r
    obtain ⟨tl1, h1⟩ := qStep_mono M Qcap counts r e
    obtain ⟨tl2, h2⟩ := ih (qStep M Qcap counts r e)
    exact ⟨tl1 ++ tl2, by rw [List.foldl_cons, h2, h1, List.append_assoc]⟩

theorem sStep_mono (M : Nat) (counts : List Nat) (r : SRun) (e : SEv) :
    ∃ tl, (sStep M counts r e).st.ctrl.merged = r.st.ctrl.merged ++ tl := by
  cases e with
  | invoke s =>
    rw [sStep, sInvoke]
    rcases hfi : r.st.ctrl.active.findIdx? (fun o => o == some s) with _ | ix
    · exact ⟨[], by simp⟩
    · exact ⟨[], by simp⟩
  | complete s =>
    rcases hfind : r.st.inflight.find? (fun t => t.1 == s) with _ | et
    · exact ⟨[], by simp [sStep, hfind]⟩
    · obtain ⟨s', k, fin, ix⟩ := et
      by_cases hix : ix = r.st.ctrl.idx
      · rcases hm : mergeAt M r.st.ctrl s k fin with ⟨c', e?⟩
        have hmm := mergeAt_merged M r.st.ctrl s k fin
        rw [hm] at hmm
        refine ⟨[(s, k)], ?_⟩
        simp only [sStep, hfind, if_pos hix, hm]
        exact hmm
      · exact ⟨[], by simp [sStep, hfind, if_neg hix]⟩

theorem foldS_mono (M : Nat) (counts : List Nat) :
    ∀ (l : List SEv) (r : SRun),
    ∃ tl, (l.foldl (sStep M counts) r).st.ctrl.merged =
      r.st.ctrl.merged ++ tl := by
  intro l
  induction l with
  | nil => intro r; exact ⟨[], by simp⟩
  | cons e t ih =>
    intro r
    obtain ⟨tl1, h1⟩ := sStep_mono M counts r e
    obtain ⟨tl2, h2⟩ := ih (sStep M counts r e)
    exact ⟨tl1 ++ tl2, by rw [List.foldl_cons, h2, h1, List.append_assoc]⟩

/-!
### In-flight bounds
-/

theorem length_le_of_nodup_lt {l : List Nat} {M : Nat} (hnd : l.Nodup)
    (hlt : ∀ j ∈ l, j < M) : l.length ≤ M := by
  have h1 : l.toFinset.card = l.length := List.toFinset_card_of_nodup hnd
  have h2 : l.toFinset ⊆ Finset.range M := by
    intro j hj
    exact Finset.mem_range.2 (hlt j (List.mem_toFinset.1 hj))
  have h3 := Finset.card_le_card h2
  rw [h1, Finset.card_range] at h3
  exact h3

/-- Each suspended call of the strict variant occupies a distinct slot, so
at most `M` calls (hence at most `M` submitted-but-unmerged blocks) are ever
in flight. -/
theorem SINV_inflight_le {M : Nat} {counts : List Nat} {r : SRun}
    (hinv : SINV M counts r) : r.st.inflight.length ≤ M := by
  obtain ⟨_, hcinv, _, _, hent, hnd, _⟩ := hinv
  have hinj := List.inj_on_of_nodup_map hnd
  have hslotinj : ∀ x ∈ r.st.inflight, ∀ y ∈ r.st.inflight,
      x.2.2.2 = y.2.2.2 → x = y := by
    intro x hx y hy hxy
    have hox := (hent x hx).1
    have hoy := (hent y hy).1
    rw [hxy] at hox
    rw [hox] at hoy
    exact hinj hx hy (Option.some.inj (Option.some.inj hoy))
  have hndl : r.st.inflight.Nodup := hnd.of_map
  have hnds : (r.st.inflight.map (fun e => e.2.2.2)).Nodup :=
    hndl.map_on hslotinj
  have hslt : ∀ j ∈ r.st.inflight.map (fun e => e.2.2.2), j < M := by
    intro j hj
    obtain ⟨e, he, rfl⟩ := List.mem_map.1 hj
    have hoe := (hent e he).1
    by_contra hge
    rw [List.get?_eq_none.2 (by rw [hcinv.lenA]; omega)] at hoe
    cases hoe
  have := length_le_of_nodup_lt hnds hslt
  rw [List.length_map] at this
  exact this

theorem bufLe_set {st : QState} {Qcap ix : Nat} {v : Option (List BufEntry)}
    (h : ∀ i, bufLenAt st i ≤ Qcap)
    (hv : ∀ b, v = some b → b.length ≤ Qcap)
    (st' : QState) (hq : st'.queues = st.queues.set ix v) :
    ∀ i, bufLenAt st' i ≤ Qcap := by
  intro i
  show (match st'.queues.get? i with
    | some (some b) => b.length | _ => 0) ≤ Qcap
  rw [hq]
  by_cases hi : ix = i
  · subst hi
    by_cases hlt : ix < st.queues.length
    · rw [get?_set_self _ _ _ hlt]
      rcases v with _ | b
      · exact Nat.zero_le _
      · exact hv b rfl
    · rw [List.set_eq_of_length_le (Nat.le_of_not_lt hlt)]
      exact h ix
  · rw [get?_set_ne _ _ hi]
    exact h i

/-- The merge loop only pops buffered entries, so it preserves any uniform
bound on the per-slot buffer lengths. -/
theorem tryMergeGo_bufLe {M Qcap : Nat} :
    ∀ (fuel : Nat) (st : QState), (∀ i, bufLenAt st i ≤ Qcap) →
    ∀ i, bufLenAt (tryMergeGo M fuel st) i ≤ Qcap := by
  intro fuel
  induction fuel with
  | zero => intro st h i; exact h i
  | succ fuel ih =>
    intro st h i
    rw [tryMergeGo]
    rcases hq : st.queues.get? st.idx with _ | q
    · exact h i
    · rcases q with _ | buf
      · exact h i
      · rcases buf with _ | ⟨⟨s, k, fin⟩, rest⟩
        · exact h i
        · have hb : bufLenAt st st.idx = rest.length + 1 := by
            show (match st.queues.get? st.idx with
              | some (some b) => b.length | _ => 0) = rest.length + 1
            rw [hq]
            rfl
          have hrest : rest.length ≤ Qcap := by
            have h0 := h st.idx
            rw [hb] at h0
            omega
          have hvr : ∀ b, (some rest : Option (List BufEntry)) = some b →
              b.length ≤ Qcap := by
            intro b hbb
            cases Option.some.inj hbb
            exact hrest
          have hvn : ∀ b, (none : Option (List BufEntry)) = some b →
              b.length ≤ Qcap := by
            intro b hbb; cases hbb
          cases fin with
          | false =>
            simp only [Bool.false_eq_true, if_false]
            rcases hadv : advance M (st.queues.set st.idx (some rest)) st.idx
              with ⟨e, j⟩ | j
            · exact bufLe_set h hvr _ rfl i
            · exact ih _ (bufLe_set h hvr _ rfl) i
          | true =>
            simp only [if_true]
            rcases hp : st.pending with _ | ⟨p, ps⟩
            · rcases hadv : advance M (st.queues.set st.idx none) st.idx
                with ⟨e, j⟩ | j
              · exact bufLe_set h hvn _ rfl i
              · exact ih _ (bufLe_set h hvn _ rfl) i
            · rcases hadv : advance M (st.queues.set st.idx (some rest)) st.idx
                with ⟨e, j⟩ | j
              · exact bufLe_set h hvr _ rfl i
              · exact ih _ (bufLe_set h hvr _ rfl) i

/-- A step of the queue variant that the real system can realize (the
submitting producer found room in its buffer) preserves the per-slot
capacity bound. -/
theorem qStep_bufLe {M Qcap : Nat} {counts : List Nat} {r : QRun} {s : Nat}
    (h : ∀ i, bufLenAt r.st i ≤ Qcap)
    (hv : (qStep M Qcap counts r s).viol = false) :
    ∀ i, bufLenAt (qStep M Qcap counts r s).st i ≤ Qcap := by
  have hv' : (r.viol ||
      !(decide (r.subCnt.getD s 0 + 1 ≤ counts.getD s 0)) ||
      !(match dictGet r.st.srcIx s with
        | some ix => decide (bufLenAt r.st ix < Qcap)
        | none => false)) = false := hv
  intro i
  show bufLenAt (qAdd M s (r.subCnt.getD s 0 + 1)
    ((r.subCnt.getD s 0 + 1) == counts.getD s 0) r.st) i ≤ Qcap
  rcases hg : dictGet r.st.srcIx s with _ | ix
  · rw [hg] at hv'
    simp at hv'
  · rw [hg] at hv'
    have hlt : bufLenAt r.st ix < Qcap := by
      obtain ⟨_, hr⟩ := Bool.or_eq_false_iff.1 hv'
      simpa using hr
    rw [qAdd]
    rw [hg]
    rcases hqx : r.st.queues[ix]? with _ | q
    · simp only [List.get?_eq_getElem?, hqx]
      exact h i
    · rcases q with _ | buf
      · simp only [List.get?_eq_getElem?, hqx]
        exact h i
      · simp only [List.get?_eq_getElem?, hqx]
        have hbl : bufLenAt r.st ix = buf.length := by
          show (match r.st.queues.get? ix with
            | some (some b) => b.length | _ => 0) = buf.length
          rw [List.get?_eq_getElem?, hqx]
        have hlen : (buf ++ [(s, r.subCnt.getD s 0 + 1,
            (r.subCnt.getD s 0 + 1) == counts.getD s 0)]).length ≤ Qcap := by
          rw [List.length_append]
          rw [hbl] at hlt
          simpa using hlt
        refine tryMergeGo_bufLe _ _ ?_ i
        refine bufLe_set h ?_ _ rfl
        intro b hbb
        cases Option.some.inj hbb
        exact hlen

theorem foldQ_bufLe {M Qcap : Nat} {counts : List Nat} :
    ∀ (l : List Nat) (r : QRun), (∀ i, bufLenAt r.st i ≤ Qcap) →
    (l.foldl (qStep M Qcap counts) r).viol = false →
    ∀ i, bufLenAt (l.foldl (qStep M Qcap counts) r).st i ≤ Qcap := by
  intro l
  induction l with
  | nil => intro r h _; exact h
  | cons e t ih =>
    intro r h hviol
    exact ih _ (qStep_bufLe h (foldl_viol_false t _ hviol)) hviol

theorem qInit_bufLe {M N Qcap : Nat} :
    ∀ i, bufLenAt (qInit M (List.range N)) i ≤ Qcap := by
  intro i
  show (match (qInit M (List.range N)).queues.get? i with
    | some (some b) => b.length | _ => 0) ≤ Qcap
  rcases hg : (qInit M (List.range N)).queues.get? i with _ | q
  · exact Nat.zero_le _
  · rcases q with _ | b
    · exact Nat.zero_le _
    · have hmem := List.get?_mem hg
      have := List.eq_of_mem_replicate hmem
      cases Option.some.inj this
      exact Nat.zero_le _

/-!
### Size of the slot table of the queue variant
-/

theorem tryMergeGo_qlen (M : Nat) :
    ∀ (fuel : Nat) (st : QState),
    (tryMergeGo M fuel st).queues.length = st.queues.length := by
  intro fuel
  induction fuel with
  | zero => intro st; rfl
  | succ fuel ih =>
    intro st
    rw [tryMergeGo]
    rcases hq : st.queues.get? st.idx with _ | q
    · rfl
    · rcases q with _ | buf
      · rfl
      · rcases buf with _ | ⟨⟨s, k, fin⟩, rest⟩
        · rfl
        · cases fin with
          | false =>
            simp only [Bool.false_eq_true, if_false]
            rcases hadv : advance M (st.queues.set st.idx (some rest)) st.idx
              with ⟨e, j⟩ | j
            · show (st.queues.set st.idx (some rest)).length = _
              rw [List.length_set]
            · rw [ih]
              show (st.queues.set st.idx (some rest)).length = _
              rw [List.length_set]
          | true =>
            simp only [if_true]
            rcases hp : st.pending with _ | ⟨p, ps⟩
            · rcases hadv : advance M (st.queues.set st.idx none) st.idx
                with ⟨e, j⟩ | j
              · show (st.queues.set st.idx none).length = _
                rw [List.length_set]
              · rw [ih]
                show (st.queues.set st.idx none).length = _
                rw [List.length_set]
            · rcases hadv : advance M (st.queues.set st.idx (some rest)) st.idx
                with ⟨e, j⟩ | j
              · show (st.queues.set st.idx (some rest)).length = _
                rw [List.length_set]
              · rw [ih]
                show (st.queues.set st.idx (some rest)).length = _
                rw [List.length_set]

theorem qAdd_qlen (M s k : Nat) (fin : Bool) (st : QState) :
    (qAdd M s k fin st).queues.length = st.queues.length := by
  rw [qAdd]
  rcases hg : dictGet st.srcIx s with _ | ix
  · rfl
  · rcases hq : st.queues[ix]? with _ | q
    · simp only [List.get?_eq_getElem?, hq]
    · rcases q with _ | buf
      · simp only [List.get?_eq_getElem?, hq]
      · simp only [List.get?_eq_getElem?, hq]
        rw [tryMerge, tryMergeGo_qlen]
        show (st.queues.set ix _).length = _
        rw [List.length_set]

theorem foldQ_qlen {M Qcap : Nat} {counts : List Nat} :
    ∀ (l : List Nat) (r : QRun),
    (l.foldl (qStep M Qcap counts) r).st.queues.length =
      r.st.queues.length := by
  intro l
  induction l with
  | nil => intro r; rfl
  | cons e t ih =>
    intro r
    rw [List.foldl_cons, ih]
    exact qAdd_qlen M e _ _ r.st

theorem runQ_qlen {M Qcap : Nat} {counts : List Nat} (sched : List Nat) :
    (runQ M Qcap counts sched).st.queues.length ≤ M := by
  rw [runQ, foldQ_qlen]
  show (List.replicate ((List.range counts.length).take M).length
    (some ([] : List BufEntry))).length ≤ M
  rw [List.length_replicate, List.length_take]
  exact min_le_left _ _

/-- A uniform per-slot bound gives the global bound `M * Qcap` on the
number of buffered entries. -/
theorem totalBuf_le {st : QState} {Qcap M : Nat}
    (h : ∀ i, bufLenAt st i ≤ Qcap) (hlen : st.queues.length ≤ M) :
    totalBuf st ≤ M * Qcap := by
  rw [totalBuf]
  have hmem : ∀ x ∈ st.queues.map (fun q => (q.getD []).length), x ≤ Qcap := by
    intro x hx
    obtain ⟨q, hq, rfl⟩ := List.mem_map.1 hx
    obtain ⟨i, hi⟩ := List.mem_iff_get?.1 hq
    rcases q with _ | b
    · simpa using Nat.zero_le _
    · have hb : bufLenAt st i = b.length := by
        show (match st.queues.get? i with
          | some (some x) => x.length | _ => 0) = b.length
        rw [hi]
      have := h i
      rw [hb] at this
      simpa using this
  calc (st.queues.map (fun q => (q.getD []).length)).sum
      ≤ (st.queues.map (fun q => (q.getD []).length)).length • Qcap :=
        List.sum_le_card_nsmul _ _ hmem
    _ = st.queues.length * Qcap := by rw [List.length_map, smul_eq_mul]
    _ ≤ M * Qcap := Nat.mul_le_mul_right _ hlen

/-!
### Permanently empty slots stay permanently empty
-/

theorem tryMergeGo_none_stable (M : Nat) :
    ∀ (fuel : Nat) (st : QState) (i : Nat),
    st.queues.get? i = some none →
    (tryMergeGo M fuel st).queues.get? i = some none := by
  intro fuel
  induction fuel with
  | zero => intro st i h; exact h
  | succ fuel ih =>
    intro st i h
    rw [tryMergeGo]
    rcases hq : st.queues.get? st.idx with _ | q
    · exact h
    · rcases q with _ | buf
      · exact h
      · rcases buf with _ | ⟨⟨s, k, fin⟩, rest⟩
        · exact h
        · have hi : st.idx ≠ i := by
            intro he
            rw [he, h] at hq
            cases hq
          cases fin with
          | false =>
            simp only [Bool.false_eq_true, if_false]
            rcases hadv : advance M (st.queues.set st.idx (some rest)) st.idx
              with ⟨e, j⟩ | j
            · show (st.queues.set st.idx (some rest)).get? i = some none
              rw [get?_set_ne _ _ hi]
              exact h
            · refine ih _ i ?_
              show (st.queues.set st.idx (some rest)).get? i = some none
              rw [get?_set_ne _ _ hi]
              exact h
          | true =>
            simp only [if_true]
            rcases hp : st.pending with _ | ⟨p, ps⟩
            · rcases hadv : advance M (st.queues.set st.idx none) st.idx
                with ⟨e, j⟩ | j
              · show (st.queues.set st.idx none).get? i = some none
                rw [get?_set_ne _ _ hi]
                exact h
              · refine ih _ i ?_
                show (st.queues.set st.idx none).get? i = some none
                rw [get?_set_ne _ _ hi]
                exact h
            · rcases hadv : advance M (st.queues.set st.idx (some rest)) st.idx
                with ⟨e, j⟩ | j
              · show (st.queues.set st.idx (some rest)).get? i = some none
                rw [get?_set_ne _ _ hi]
                exact h
              · refine ih _ i ?_
                show (st.queues.set st.idx (some rest)).get? i = some none
                rw [get?_set_ne _ _ hi]
                exact h

theorem qAdd_none_stable (M s k : Nat) (fin : Bool) (st : QState) (i : Nat)
    (h : st.queues.get? i = some none) :
    (qAdd M s k fin st).queues.get? i = some none := by
  rcases hg : dictGet st.srcIx s with _ | ix
  · simp only [qAdd, hg]
    exact h
  · rcases hq : st.queues.get? ix with _ | q
    · simp only [qAdd, hg, hq]
      exact h
    · rcases q with _ | buf
      · simp only [qAdd, hg, hq]
        exact h
      · simp only [qAdd, hg, hq]
        have hi : ix ≠ i := by
          intro he
          rw [he, h] at hq
          cases hq
        rw [tryMerge]
        refine tryMergeGo_none_stable M _ _ i ?_
        show (st.queues.set ix (some (buf ++ [(s, k, fin)]))).get? i = some none
        rw [get?_set_ne _ _ hi]
        exact h

/-!
### The case of as many slots as sources

With `M = N` the constructor fills every slot, the pending queue starts
empty and stays empty, and slot `i` is occupied by source `i` for the whole
run: no slot is ever refilled with a new source.
-/

theorem initC_get? (M N i : Nat) :
    (initC M (List.range N)).active.get? i =
      if i < min M N then some (some i) else none := by
  show (((List.range N).take M).map some).get? i = _
  rw [List.get?_eq_getElem?, List.getElem?_map]
  by_cases hi : i < min M N
  · have h1 : ((List.range N).take M)[i]? = some i := by
      rw [List.getElem?_take, if_pos (show i < M by omega),
        List.getElem?_range (by omega)]
    rw [h1, if_pos hi]
    rfl
  · have h1 : ((List.range N).take M)[i]? = none := by
      rw [List.getElem?_eq_none]
      rw [List.length_take, List.length_range]
      omega
    rw [h1, if_neg hi]
    rfl

theorem initC_pending_nil {M N : Nat} (h : N ≤ M) :
    (initC M (List.range N)).pending = [] := by
  show (List.range N).drop M = []
  rw [List.drop_eq_nil_iff_le, List.length_range]
  exact h

/-- With `M = N`, in every canonical machine state the pending queue is
empty and the occupant of slot `i` can only be source `i` itself. -/
theorem canonSt_MN {counts : List Nat} :
    ∀ (n : Nat) (c : CState),
    canonSt counts.length counts n = some c →
    c.pending = [] ∧
    (∀ i s, c.active.get? i = some (some s) → s = i) := by
  intro n
  induction n with
  | zero =>
    intro c h
    cases Option.some.inj h
    constructor
    · exact initC_pending_nil le_rfl
    · intro i s hi
      rw [initC_get?] at hi
      by_cases hlt : i < min counts.length counts.length
      · rw [if_pos hlt] at hi
        exact (Option.some.inj (Option.some.inj hi)).symm
      · rw [if_neg hlt] at hi
        cases hi
  | succ n ih =>
    intro c h
    rw [canonSt] at h
    rcases hc : canonSt counts.length counts n with _ | c₀
    · rw [hc] at h; cases h
    · rw [hc] at h
      replace h : forcedStep counts.length counts c₀ = some c := h
      obtain ⟨hpend, hocc⟩ := ih c₀ hc
      obtain ⟨s, hA, hme⟩ := forcedStep_inv h
      constructor
      · rw [← hme, mergeAt_pending]
        rw [hpend]
        split <;> rfl
      · intro i s' hgi
        rw [← hme, mergeAt_active] at hgi
        by_cases hfin : (mergedCnt c₀.merged s + 1) == counts.getD s 0
        · rw [if_pos hfin] at hgi
          rw [hpend] at hgi
          by_cases hi : c₀.idx = i
          · subst hi
            by_cases hlt : c₀.idx < c₀.active.length
            · rw [get?_set_self _ _ _ hlt] at hgi
              cases Option.some.inj hgi
            · rw [List.set_eq_of_length_le (Nat.le_of_not_lt hlt)] at hgi
              exact hocc _ _ hgi
          · rw [get?_set_ne _ _ hi] at hgi
            exact hocc _ _ hgi
        · rw [if_neg hfin] at hgi
          exact hocc _ _ hgi

/-- With `M = N` the constructor of the queue variant maps every source to
its own slot and leaves nothing pending. -/
theorem qInit_MN (N : Nat) :
    (∀ s, dictGet (qInit N (List.range N)).srcIx s =
      if s < N then some s else none) ∧
    (qInit N (List.range N)).pending = [] := by
  have htake : (List.range N).take N = List.range N := by
    have h := List.take_length (List.range N)
    rw [List.length_range] at h
    exact h
  constructor
  · intro s
    show dictGet (((List.range N).take N).enum.map (fun p => (p.2, p.1))) s = _
    rw [htake, enum_range_map]
    exact dictGet_range_map N s
  · show (List.range N).drop N = []
    rw [List.drop_eq_nil_iff_le, List.length_range]

/-!
### The claims
-/

/-- C5.  The claim states that in the queue variant every call to
`add`/`__try_merge` terminates normally, in particular the submission that
merges the final block of the last remaining source.  This is false in the
code: on that very submission the merge loop marks the last slot
permanently empty, the advance loop wraps back to it, and the next
iteration's `assert self.__queue[self.__index] is not None` fails, so the
call raises an `AssertionError`.  The run below (one source, one block,
one slot) is realizable (`viol = false`), complete, merges its block, and
still records the failed assertion. -/
theorem claim_C5 :
    (runQ 1 1 [1] [0]).viol = false ∧
    (runQ 1 1 [1] [0]).subCnt = [1] ∧
    (runQ 1 1 [1] [0]).st.merged = [(0, 1)] ∧
    (runQ 1 1 [1] [0]).st.err = some MergeErr.emptyAssert := by decide

/-- C6.  The claim states that `add` raises if and only if the submitting
source occupies no slot, and that every submission by a slot-occupying
source succeeds.  The second half is false in the code: below, source `1`
occupies slot `1` when it submits its (final) block — the run is
realizable and the first submission finished without error — yet its `add`
call raises the failed `assert self.__queue[self.__index] is not None`
from `__try_merge` after merging the final block of the last source. -/
theorem claim_C6 :
    dictGet (runQ 2 1 [1, 1] [0]).st.srcIx 1 = some 1 ∧
    (runQ 2 1 [1, 1] [0]).st.err = none ∧
    (runQ 2 1 [1, 1] [0, 1]).viol = false ∧
    (runQ 2 1 [1, 1] [0, 1]).st.err = some MergeErr.emptyAssert := by decide

/-- Counterexample to C7 as stated: with more slots than sources
(`M = 2 > N = 1`) the slot lists have length `N`, so the advance loop's
index sweep over `range(M)` reads past the end of the list and both
variants raise an `IndexError` on realizable schedules, instead of
cycling without error. -/
theorem claim_C7_cex :
    (runS 2 [1] [SEv.invoke 0, SEv.complete 0]).viol = false ∧
    (runS 2 [1] [SEv.invoke 0, SEv.complete 0]).st.err = some MergeErr.oob ∧
    (runQ 2 1 [2] [0, 0]).viol = false ∧
    (runQ 2 1 [2] [0, 0]).st.err = some MergeErr.oob := by decide

/-- Counterexample to C9 as stated: the strict variant admits a realizable
state with `M` submitted-but-unmerged blocks outstanding, one more than
the claimed bound `M - 1` — with `M = 2`, both producers can have a call
suspended on the condition variable at the same time. -/
theorem claim_C9_cex :
    (runS 2 [2, 1] [SEv.invoke 0, SEv.invoke 1]).viol = false ∧
    (runS 2 [2, 1] [SEv.invoke 0, SEv.invoke 1]).st.err = none ∧
    (runS 2 [2, 1] [SEv.invoke 0, SEv.invoke 1]).st.inflight.length = 2 := by
  decide

/-- C8.  A slot's occupant changes only at the merge of that occupant's
terminal block: a non-final merge leaves the whole slot table unchanged; a
final merge replaces exactly the slot at the turn pointer, atomically, by
the head of the pending FIFO (`sources.pop(0)`) or by the permanently
empty sentinel when the queue is exhausted; slots other than the merging
one are never touched; and in both variants a permanently empty slot never
becomes occupied again. -/
theorem claim_C8 :
    (∀ (M : Nat) (c : CState) (s k : Nat),
      (mergeAt M c s k false).1.active = c.active) ∧
    (∀ (M : Nat) (c : CState) (s k : Nat),
      (mergeAt M c s k true).1.active = c.active.set c.idx c.pending.head?) ∧
    (∀ (M : Nat) (c : CState) (s k : Nat) (fin : Bool) (i : Nat), i ≠ c.idx →
      (mergeAt M c s k fin).1.active.get? i = c.active.get? i) ∧
    (∀ (M : Nat) (c : CState) (s k : Nat) (fin : Bool) (i s₀ : Nat),
      c.active.get? c.idx = some (some s₀) →
      c.active.get? i = some none →
      (mergeAt M c s k fin).1.active.get? i = some none) ∧
    (∀ (M fuel : Nat) (st : QState) (i : Nat),
      st.queues.get? i = some none →
      (tryMergeGo M fuel st).queues.get? i = some none) ∧
    (∀ (M s k : Nat) (fin : Bool) (st : QState) (i : Nat),
      st.queues.get? i = some none →
      (qAdd M s k fin st).queues.get? i = some none) := by
  refine ⟨?_, ?_, ?_, ?_, tryMergeGo_none_stable, qAdd_none_stable⟩
  · intro M c s k
    rw [mergeAt_active]
    rfl
  · intro M c s k
    rw [mergeAt_active]
    rfl
  · intro M c s k fin i hi
    rw [mergeAt_active]
    cases fin with
    | false => rfl
    | true =>
      show (c.active.set c.idx c.pending.head?).get? i = c.active.get? i
      exact get?_set_ne _ _ (fun he => hi he.symm)
  · intro M c s k fin i s₀ hocc hi
    have hne : i ≠ c.idx := by
      intro he
      rw [he, hocc] at hi
      cases hi
    rw [mergeAt_active]
    cases fin with
    | false => exact hi
    | true =>
      show (c.active.set c.idx c.pending.head?).get? i = some none
      rw [get?_set_ne _ _ (fun he => hne he.symm)]
      exact hi

/-- Witness for C8 on concrete states: a final merge at the turn pointer
leaves the other slot untouched, and an `add` of the queue variant leaves
a permanently empty slot permanently empty. -/
theorem claim_C8_witness :
    (mergeAt 2 { active := [some 0, some 1], pending := [2], idx := 0, merged := [] } 0 1 true).1.active.get? 1 =
      [(some 0 : Option Nat), some 1].get? 1 ∧
    (qAdd 2 0 1 false { srcIx := [(0, 0)], pending := [], queues := [some [], none], idx := 0, merged := [], err := none }).queues.get? 1 = some none := by
  constructor
  · exact claim_C8.2.2.1 2
      { active := [some 0, some 1], pending := [2], idx := 0, merged := [] }
      0 1 true 1 (by decide)
  · exact claim_C8.2.2.2.2.2 2 0 1 false
      { srcIx := [(0, 0)], pending := [], queues := [some [], none], idx := 0, merged := [], err := none } 1 (by decide)

/-- C1.  Determinism: for a fixed configuration (slot count `M`, per-source
block counts in activation order, any buffer capacity), any two realizable
complete submission interleavings produce the same merged output in the
queue variant, and likewise in the strict variant — the output is a
function of the configuration only (both sides equal `canonOut`). -/
theorem claim_C1 :
    (∀ (M Qcap₁ Qcap₂ : Nat) (counts : List Nat) (s₁ s₂ : List Nat),
      0 < M → M ≤ counts.length → (∀ x ∈ counts, 0 < x) →
      (runQ M Qcap₁ counts s₁).viol = false →
      (runQ M Qcap₁ counts s₁).subCnt = counts →
      (runQ M Qcap₂ counts s₂).viol = false →
      (runQ M Qcap₂ counts s₂).subCnt = counts →
      (runQ M Qcap₁ counts s₁).st.merged =
        (runQ M Qcap₂ counts s₂).st.merged) ∧
    (∀ (M : Nat) (counts : List Nat) (s₁ s₂ : List SEv),
      0 < M → M ≤ counts.length → (∀ x ∈ counts, 0 < x) →
      (runS M counts s₁).viol = false → (runS M counts s₁).st.err = none →
      (runS M counts s₁).subCnt = counts →
      (runS M counts s₁).st.inflight = [] →
      (runS M counts s₂).viol = false → (runS M counts s₂).st.err = none →
      (runS M counts s₂).subCnt = counts →
      (runS M counts s₂).st.inflight = [] →
      (runS M counts s₁).st.ctrl.merged =
        (runS M counts s₂).st.ctrl.merged) := by
  constructor
  · intro M Q1 Q2 counts s₁ s₂ hM hMN hcts hv1 hc1 hv2 hc2
    rw [runQ_merged hM hMN hcts s₁ hv1 hc1,
      runQ_merged hM hMN hcts s₂ hv2 hc2]
  · intro M counts s₁ s₂ hM hMN hcts hv1 he1 hc1 hi1 hv2 he2 hc2 hi2
    rw [runS_merged hM hMN hcts s₁ hv1 he1 hc1 hi1,
      runS_merged hM hMN hcts s₂ hv2 he2 hc2 hi2]

/-- Witness for C1: two different interleavings of the configuration
`M = 2`, counts `[1, 2, 1]`, in each variant, produce identical output. -/
theorem claim_C1_witness :
    (runQ 2 1 [1, 2, 1] [0, 1, 2, 1]).st.merged =
      (runQ 2 1 [1, 2, 1] [1, 0, 1, 2]).st.merged ∧
    (runS 2 [1, 2, 1] [SEv.invoke 0, SEv.complete 0, SEv.invoke 1,
        SEv.complete 1, SEv.invoke 2, SEv.complete 2, SEv.invoke 1,
        SEv.complete 1]).st.ctrl.merged =
      (runS 2 [1, 2, 1] [SEv.invoke 1, SEv.invoke 0, SEv.complete 0,
        SEv.invoke 2, SEv.complete 1, SEv.invoke 1, SEv.complete 2,
        SEv.complete 1]).st.ctrl.merged :=
  ⟨claim_C1.1 2 1 1 [1, 2, 1] [0, 1, 2, 1] [1, 0, 1, 2] (by decide)
      (by decide) (by decide) (by decide) (by decide) (by decide) (by decide),
   claim_C1.2 2 [1, 2, 1]
      [SEv.invoke 0, SEv.complete 0, SEv.invoke 1, SEv.complete 1,
        SEv.invoke 2, SEv.complete 2, SEv.invoke 1, SEv.complete 1]
      [SEv.invoke 1, SEv.invoke 0, SEv.complete 0, SEv.invoke 2,
        SEv.complete 1, SEv.invoke 1, SEv.complete 2, SEv.complete 1]
      (by decide) (by decide) (by decide) (by decide) (by decide)
      (by decide) (by decide) (by decide) (by decide) (by decide)
      (by decide)⟩

/-- C2.  Equivalence of the two variants: for an identical configuration
and any buffer capacity `Q ≥ 1`, a realizable complete run of the strict
merger and a realizable complete run of the queue merger produce
element-for-element identical merged output. -/
theorem claim_C2 :
    ∀ (M Qcap : Nat) (counts : List Nat) (ss : List SEv) (sq : List Nat),
      0 < M → M ≤ counts.length → (∀ x ∈ counts, 0 < x) → 1 ≤ Qcap →
      (runS M counts ss).viol = false → (runS M counts ss).st.err = none →
      (runS M counts ss).subCnt = counts →
      (runS M counts ss).st.inflight = [] →
      (runQ M Qcap counts sq).viol = false →
      (runQ M Qcap counts sq).subCnt = counts →
      (runS M counts ss).st.ctrl.merged = (runQ M Qcap counts sq).st.merged := by
  intro M Qcap counts ss sq hM hMN hcts _ hv1 he1 hc1 hi1 hv2 hc2
  rw [runS_merged hM hMN hcts ss hv1 he1 hc1 hi1,
    runQ_merged hM hMN hcts sq hv2 hc2]

/-- Witness for C2: a strict run and a queue run of the configuration
`M = 2`, counts `[1, 2, 1]`, `Q = 1` produce the same output. -/
theorem claim_C2_witness :
    (runS 2 [1, 2, 1] [SEv.invoke 0, SEv.complete 0, SEv.invoke 1,
        SEv.complete 1, SEv.invoke 2, SEv.complete 2, SEv.invoke 1,
        SEv.complete 1]).st.ctrl.merged =
      (runQ 2 1 [1, 2, 1] [0, 1, 2, 1]).st.merged :=
  claim_C2 2 1 [1, 2, 1]
    [SEv.invoke 0, SEv.complete 0, SEv.invoke 1, SEv.complete 1,
      SEv.invoke 2, SEv.complete 2, SEv.invoke 1, SEv.complete 1]
    [0, 1, 2, 1] (by decide) (by decide) (by decide) (by decide) (by decide)
    (by decide) (by decide) (by decide) (by decide) (by decide)

/-- C3.  Conservation and monotonicity: a realizable complete run of
either variant merges exactly `totalBlocks counts` blocks, with no block
twice (`Nodup`) and no omission (`(s, k)` appears iff `s` is a source and
`1 ≤ k ≤ counts[s]`); and along any run the merged output only ever grows
on the right — blocks are never removed or reordered. -/
theorem claim_C3 :
    (∀ (M Qcap : Nat) (counts : List Nat) (sched : List Nat),
      0 < M → M ≤ counts.length → (∀ x ∈ counts, 0 < x) →
      (runQ M Qcap counts sched).viol = false →
      (runQ M Qcap counts sched).subCnt = counts →
      (runQ M Qcap counts sched).st.merged.length = totalBlocks counts ∧
      (runQ M Qcap counts sched).st.merged.Nodup ∧
      (∀ s k, (s, k) ∈ (runQ M Qcap counts sched).st.merged ↔
        s < counts.length ∧ 1 ≤ k ∧ k ≤ counts.getD s 0)) ∧
    (∀ (M : Nat) (counts : List Nat) (sched : List SEv),
      0 < M → M ≤ counts.length → (∀ x ∈ counts, 0 < x) →
      (runS M counts sched).viol = false →
      (runS M counts sched).st.err = none →
      (runS M counts sched).subCnt = counts →
      (runS M counts sched).st.inflight = [] →
      (runS M counts sched).st.ctrl.merged.length = totalBlocks counts ∧
      (runS M counts sched).st.ctrl.merged.Nodup ∧
      (∀ s k, (s, k) ∈ (runS M counts sched).st.ctrl.merged ↔
        s < counts.length ∧ 1 ≤ k ∧ k ≤ counts.getD s 0)) ∧
    (∀ (M Qcap : Nat) (counts : List Nat) (s₁ s₂ : List Nat),
      ∃ tl, (runQ M Qcap counts (s₁ ++ s₂)).st.merged =
        (runQ M Qcap counts s₁).st.merged ++ tl) ∧
    (∀ (M : Nat) (counts : List Nat) (s₁ s₂ : List SEv),
      ∃ tl, (runS M counts (s₁ ++ s₂)).st.ctrl.merged =
        (runS M counts s₁).st.ctrl.merged ++ tl) := by
  refine ⟨?_, ?_, ?_, ?_⟩
  · intro M Qcap counts sched hM hMN hcts hv hc
    rw [runQ_merged hM hMN hcts sched hv hc]
    exact ⟨canonOut_length hM hMN hcts, canonOut_nodup hM hMN hcts,
      canonOut_mem hM hMN hcts⟩
  · intro M counts sched hM hMN hcts hv he hc hi
    rw [runS_merged hM hMN hcts sched hv he hc hi]
    exact ⟨canonOut_length hM hMN hcts, canonOut_nodup hM hMN hcts,
      canonOut_mem hM hMN hcts⟩
  · intro M Qcap counts s₁ s₂
    rw [runQ, runQ, List.foldl_append]
    exact foldQ_mono M Qcap counts s₂ _
  · intro M counts s₁ s₂
    rw [runS, runS, List.foldl_append]
    exact foldS_mono M counts s₂ _

/-- Witness for C3 at the configuration `M = 2`, counts `[1, 2, 1]`. -/
theorem claim_C3_witness :
    (runQ 2 1 [1, 2, 1] [0, 1, 2, 1]).st.merged.length =
      totalBlocks [1, 2, 1] ∧
    (runQ 2 1 [1, 2, 1] [0, 1, 2, 1]).st.merged.Nodup :=
  ⟨(claim_C3.1 2 1 [1, 2, 1] [0, 1, 2, 1] (by decide) (by decide)
      (by decide) (by decide) (by decide)).1,
   (claim_C3.1 2 1 [1, 2, 1] [0, 1, 2, 1] (by decide) (by decide)
      (by decide) (by decide) (by decide)).2.1⟩

/-- C4.  The golden scenario: with `M = 4` slots and the ten sources
`A..J` with counts `[2, 3, 9, 2, 5, 3, 3, 6, 1, 7]` in activation order,
the canonical output is exactly the documented sequence `A1, B1, C1, D1,
A2, ...` and every realizable complete run of either variant produces
exactly that sequence. -/
theorem claim_C4 :
    canonOut 4 goldenCounts = goldenOut ∧
    (∀ sched : List SEv,
      (runS 4 goldenCounts sched).viol = false →
      (runS 4 goldenCounts sched).st.err = none →
      (runS 4 goldenCounts sched).subCnt = goldenCounts →
      (runS 4 goldenCounts sched).st.inflight = [] →
      (runS 4 goldenCounts sched).st.ctrl.merged = goldenOut) ∧
    (∀ (Qcap : Nat) (sched : List Nat),
      (runQ 4 Qcap goldenCounts sched).viol = false →
      (runQ 4 Qcap goldenCounts sched).subCnt = goldenCounts →
      (runQ 4 Qcap goldenCounts sched).st.merged = goldenOut) := by
  have hone : canonOut 4 goldenCounts = goldenOut := by decide
  refine ⟨hone, ?_, ?_⟩
  · intro sched hv he hc hi
    rw [runS_merged (by decide) (by decide) (by decide) sched hv he hc hi,
      hone]
  · intro Qcap sched hv hc
    rw [runQ_merged (by decide) (by decide) (by decide) sched hv hc, hone]

/-- Witness for C4: the sequential strict schedule of the golden scenario
produces the documented sequence. -/
theorem claim_C4_witness :
    (runS 4 goldenCounts goldenSchedS).st.ctrl.merged = goldenOut :=
  claim_C4.2.1 goldenSchedS (by decide) (by decide) (by decide) (by decide)

/-- C7 (amended to `M = N`).  With exactly as many slots as sources every
slot starts occupied by its own source (in both variants) and the pending
queue starts empty; in every reachable canonical state the pending queue
is empty and slot `i` can only hold source `i`, so no slot is ever
refilled with a new source; every realizable complete strict run produces
the full canonical output; and on `M = N = 3`, counts `[2, 1, 3]`, that
output is the activation-order round-robin of the live sources.  (As
stated, with `M > N`, the claim is false: see the counterexample.) -/
theorem claim_C7 :
    (∀ N i, i < N →
      (initC N (List.range N)).active.get? i = some (some i)) ∧
    (∀ N, (initC N (List.range N)).pending = []) ∧
    (∀ N s, dictGet (qInit N (List.range N)).srcIx s =
      if s < N then some s else none) ∧
    (∀ N, (qInit N (List.range N)).pending = []) ∧
    (∀ (counts : List Nat) (n : Nat) (c : CState),
      canonSt counts.length counts n = some c →
      c.pending = [] ∧ ∀ i s, c.active.get? i = some (some s) → s = i) ∧
    (∀ (counts : List Nat) (sched : List SEv),
      0 < counts.length → (∀ x ∈ counts, 0 < x) →
      (runS counts.length counts sched).viol = false →
      (runS counts.length counts sched).st.err = none →
      (runS counts.length counts sched).subCnt = counts →
      (runS counts.length counts sched).st.inflight = [] →
      (runS counts.length counts sched).st.ctrl.merged =
        canonOut counts.length counts ∧
      (runS counts.length counts sched).st.ctrl.merged.length =
        totalBlocks counts) ∧
    canonOut 3 [2, 1, 3] =
      [(0, 1), (1, 1), (2, 1), (0, 2), (2, 2), (2, 3)] := by
  refine ⟨?_, fun N => initC_pending_nil le_rfl,
    fun N => (qInit_MN N).1, fun N => (qInit_MN N).2,
    fun counts n c h => canonSt_MN n c h, ?_, by decide⟩
  · intro N i hi
    rw [initC_get?, min_self, if_pos hi]
  · intro counts sched hN hcts hv he hc hi
    have hm := runS_merged hN le_rfl hcts sched hv he hc hi
    exact ⟨hm, by rw [hm]; exact canonOut_length hN le_rfl hcts⟩

/-- Witness for C7 at `M = N`: the one-source configuration completes with
the full output, and slot `0` of a two-source configuration starts
occupied by source `0`. -/
theorem claim_C7_witness :
    (initC 2 (List.range 2)).active.get? 0 = some (some 0) ∧
    (runS 1 [1] [SEv.invoke 0, SEv.complete 0]).st.ctrl.merged =
      canonOut 1 [1] :=
  ⟨claim_C7.1 2 0 (by decide),
   (claim_C7.2.2.2.2.2.1 [1] [SEv.invoke 0, SEv.complete 0] (by decide)
      (by decide) (by decide) (by decide) (by decide) (by decide)).1⟩

/-- C9 (amended).  The number of submitted-but-unmerged blocks is bounded
at every instant of a realizable run: in the strict variant by `M` (not
`M - 1` as claimed — see the counterexample), and in the queue variant
every per-slot buffer holds at most `Q` entries, for at most `M * Q`
outstanding blocks overall. -/
theorem claim_C9 :
    (∀ (M : Nat) (counts : List Nat) (s₁ s₂ : List SEv),
      0 < M → M ≤ counts.length → (∀ x ∈ counts, 0 < x) →
      (runS M counts (s₁ ++ s₂)).viol = false →
      (runS M counts (s₁ ++ s₂)).st.err = none →
      (runS M counts s₁).st.inflight.length ≤ M) ∧
    (∀ (M Qcap : Nat) (counts : List Nat) (s₁ s₂ : List Nat),
      (runQ M Qcap counts (s₁ ++ s₂)).viol = false →
      (∀ i, bufLenAt (runQ M Qcap counts s₁).st i ≤ Qcap) ∧
      totalBuf (runQ M Qcap counts s₁).st ≤ M * Qcap) := by
  constructor
  · intro M counts s₁ s₂ hM hMN hcts hv he
    have hsplit : runS M counts (s₁ ++ s₂) =
        s₂.foldl (sStep M counts) (runS M counts s₁) := by
      rw [runS, runS, List.foldl_append]
    rw [hsplit] at hv he
    have hv1 := foldS_viol_false s₂ _ hv
    have he1 := foldS_err_none s₂ _ he
    exact SINV_inflight_le
      (SINV_foldl hM hMN hcts s₁ _ (SINV_init hM hMN hcts) hv1 he1)
  · intro M Qcap counts s₁ s₂ hv
    have hsplit : runQ M Qcap counts (s₁ ++ s₂) =
        s₂.foldl (qStep M Qcap counts) (runQ M Qcap counts s₁) := by
      rw [runQ, runQ, List.foldl_append]
    rw [hsplit] at hv
    have hv1 := foldl_viol_false s₂ _ hv
    have hb : ∀ i, bufLenAt (runQ M Qcap counts s₁).st i ≤ Qcap :=
      foldQ_bufLe s₁ _ (fun i => qInit_bufLe i) hv1
    exact ⟨hb, totalBuf_le hb (runQ_qlen s₁)⟩

/-- Witness for C9 at the configuration `M = 2`, counts `[1, 2, 1]`,
`Q = 1`, after one submission of a realizable complete run. -/
theorem claim_C9_witness :
    (runS 2 [1, 2, 1] [SEv.invoke 0]).st.inflight.length ≤ 2 ∧
    bufLenAt (runQ 2 1 [1, 2, 1] [0]).st 0 ≤ 1 ∧
    totalBuf (runQ 2 1 [1, 2, 1] [0]).st ≤ 2 * 1 :=
  ⟨claim_C9.1 2 [1, 2, 1] [SEv.invoke 0]
      [SEv.complete 0, SEv.invoke 1, SEv.complete 1, SEv.invoke 2,
        SEv.complete 2, SEv.invoke 1, SEv.complete 1]
      (by decide) (by decide) (by decide) (by decide) (by decide),
   (claim_C9.2 2 1 [1, 2, 1] [0] [1, 2, 1] (by decide)).1 0,
   (claim_C9.2 2 1 [1, 2, 1] [0] [1, 2, 1] (by decide)).2⟩

/-- C10.  Slot occupancy is injective in every reachable state of a
realizable run: in the strict variant no two slots of the slot table hold
the same (non-`None`) source, and in the queue variant the source-to-slot
dictionary maps distinct sources to distinct slot indices, so resolving a
source to its slot in `add` is unambiguous. -/
theorem claim_C10 :
    (∀ (M : Nat) (counts : List Nat) (sched : List SEv),
      0 < M → M ≤ counts.length → (∀ x ∈ counts, 0 < x) →
      (runS M counts sched).viol = false →
      (runS M counts sched).st.err = none →
      ∀ i j s,
        (runS M counts sched).st.ctrl.active.get? i = some (some s) →
        (runS M counts sched).st.ctrl.active.get? j = some (some s) →
        i = j) ∧
    (∀ (M Qcap : Nat) (counts : List Nat) (sched : List Nat),
      0 < M → M ≤ counts.length → (∀ x ∈ counts, 0 < x) →
      (runQ M Qcap counts sched).viol = false →
      ∀ s₁ s₂ i,
        dictGet (runQ M Qcap counts sched).st.srcIx s₁ = some i →
        dictGet (runQ M Qcap counts sched).st.srcIx s₂ = some i →
        s₁ = s₂) := by
  constructor
  · intro M counts sched hM hMN hcts hv he i j s h1 h2
    obtain ⟨_, hcinv, _, _, _, _, _⟩ :=
      SINV_foldl hM hMN hcts sched _ (SINV_init hM hMN hcts) hv he
    exact hcinv.occInj i j s h1 h2
  · intro M Qcap counts sched hM hMN hcts hv s₁ s₂ i h1 h2
    obtain ⟨c, hcanon, hcinv, hcore, _, _⟩ :=
      QINV_foldl hM hMN hcts sched _ (QINV_init hM hMN hcts) hv
    have o1 := hcore.dictOcc s₁ i h1
    have o2 := hcore.dictOcc s₂ i h2
    rw [o1] at o2
    exact Option.some.inj (Option.some.inj o2)

/-- Witness for C10 after one submission of the configuration `M = 2`,
counts `[1, 2, 1]`: both occupancy maps are (trivially) injective at the
occupied slot. -/
theorem claim_C10_witness :
    (runS 2 [1, 2, 1] [SEv.invoke 0]).st.ctrl.active.get? 0 =
      some (some 0) ∧
    dictGet (runQ 2 1 [1, 2, 1] [0]).st.srcIx 2 = some 0 ∧
    (0 : Nat) = 0 ∧ (2 : Nat) = 2 :=
  ⟨by decide, by decide,
   claim_C10.1 2 [1, 2, 1] [SEv.invoke 0] (by decide) (by decide)
      (by decide) (by decide) (by decide) 0 0 0 (by decide) (by decide),
   claim_C10.2 2 1 [1, 2, 1] [0] (by decide) (by decide) (by decide)
      (by decide) 2 2 0 (by decide) (by decide)⟩

end BlockMerge
